import Mathlib

/-!
Verification of the fixed-point arithmetic core of `picalc.cpp`.

The program represents a fractional value in [0,1) as `DIGITS` unsigned
64-bit limbs (most significant at index 0) together with a cached count
`zeros` of leading zero limbs.  We embed the limb vectors as `List Nat`
whose entries are below `B = 2^64`; every store of a wider (`__uint128_t`)
intermediate into a 64-bit limb is modelled by an explicit `% B`, and
every 128-bit intermediate that could wrap is reduced `% DD` with
`DD = 2^128`.  The C++ code fixes `DIGITS = 10000`; the precision appears
here as an explicit parameter `N` of each operation, exactly as the
constant is used in the source.
-/

namespace Picalc

/-- Limb base: `2^64`, the modulus of the `Digit` (`__uint64_t`) type. -/
def B : Nat := 2 ^ 64

/-- Modulus of the `Double` (`__uint128_t`) accumulator type. -/
def DD : Nat := 2 ^ 128

/-- The compile-time precision constant of the source (`const int DIGITS`). -/
def DIGITS : Nat := 10000

/-- The struct `Number`: limb vector plus cached leading-zero count. -/
structure Number where
  digits : List Nat
  zeros : Nat
deriving DecidableEq, Repr

/-- Scan helper for `update_zeros`: first index `≥ i` holding a nonzero
limb, where the list is the suffix of the limb vector starting at index
`i`; returns `N` when every scanned limb is zero. -/
def firstNonzero (N : Nat) : List Nat → Nat → Nat
  | [], _ => N
  | d :: ds, i => if d ≠ 0 then i else firstNonzero N ds (i + 1)

/-- `Number::update_zeros(min)`: `zeros = DIGITS; for (i=min; i<DIGITS; i++)
if (digits[i]) { zeros = i; return; }`. -/
def update_zeros (N : Nat) (ds : List Nat) (m : Nat) : Nat :=
  firstNonzero N (ds.drop m) m

/-- `Number::set_zero()`: all limbs zero, `zeros = DIGITS`. -/
def set_zero (N : Nat) : Number :=
  ⟨List.replicate N 0, N⟩

/-- `Number::is_zero()`: `zeros == DIGITS`. -/
def is_zero (N : Nat) (a : Number) : Bool :=
  a.zeros == N

/-- Limb-filling loop of `Number::set_inv`: for each limb in order,
`nom = rem << 64; d = nom / x; rem = nom % x` with a 128-bit `nom`
and the quotient truncated into a 64-bit limb. -/
def inv_digits (x : Nat) : Nat → Nat → List Nat
  | _, 0 => []
  | rem, n + 1 =>
    let nom := rem * B % DD
    (nom / x % B) :: inv_digits x (nom % x) n

/-- `Number::set_inv(x)`: `set_zero()` (every limb is then overwritten),
the long-division fill, then `update_zeros()`. -/
def set_inv (N x : Nat) : Number :=
  let ds := inv_digits x 1 N
  ⟨ds, update_zeros N ds 0⟩

/-- Loop of `Number::mul4`, processed least-significant limb first: the
recursive call handles the higher-index (less significant) limbs and
hands the carry to the current limb.  `carry += 4*digits[i]; digits[i] =
carry; carry >>= 64;` with a 128-bit `carry`. -/
def mul4_digits : List Nat → List Nat × Nat
  | [] => ([], 0)
  | d :: ds =>
    let (rest, c) := mul4_digits ds
    let carry := (c + 4 * d) % DD
    (carry % B :: rest, carry / B)

/-- `Number::mul4()`: the carry loop over all limbs, then `update_zeros()`.
The carry out of limb index 0 is discarded. -/
def mul4 (N : Nat) (a : Number) : Number :=
  let ds := (mul4_digits a.digits).1
  ⟨ds, update_zeros N ds 0⟩

/-- Long-division loop shared by `set_to_div` and `operator/=`:
`num = (rem << 64) + digits[i]; digits[i] = num / d; rem = num % d` with a
128-bit `num` and the quotient truncated into a 64-bit limb.  Returns the
produced limbs together with the final remainder (which the source keeps
in a local and discards). -/
def div_digits (d : Nat) : Nat → List Nat → List Nat × Nat
  | rem, [] => ([], rem)
  | rem, a :: as =>
    let num := (rem * B % DD + a) % DD
    let (rest, r) := div_digits d (num % d) as
    (num / d % B :: rest, r)

/-- First loop of `Number::set_to_div`: `for (i=zeros; i<x.zeros; i++)
digits[i] = 0;`. -/
def zero_range (ds : List Nat) (lo hi : Nat) : List Nat :=
  ds.mapIdx fun i d => if lo ≤ i ∧ i < hi then 0 else d

/-- `Number::set_to_div(x, d)`: zero the destination limbs in
`[zeros, x.zeros)`, long-divide `x`'s limbs from index `x.zeros` on, then
`update_zeros(x.zeros)`. -/
def set_to_div (N : Nat) (a x : Number) (d : Nat) : Number :=
  let ds := (zero_range a.digits a.zeros x.zeros).take x.zeros ++
    (div_digits d 0 (x.digits.drop x.zeros)).1
  ⟨ds, update_zeros N ds x.zeros⟩

/-- Loop of `Number::operator+=`, processed least-significant limb first
over the limb pairs at indices `≥ rhs.zeros`: `res = carry + digits[i] +
rhs.digits[i]` (128-bit), limb takes `res` truncated, carry takes
`res >> 64`.  The carry left over when the loop stops at `rhs.zeros` is
returned (and discarded by the caller, as in the source). -/
def add_digits : List Nat → List Nat → List Nat × Nat
  | a :: as, b :: bs =>
    let (rest, c) := add_digits as bs
    let res := (c + a + b) % DD
    (res % B :: rest, res / B)
  | _, _ => ([], 0)

/-- `Number::operator+=(rhs)`: the carry loop runs only over indices
`i ≥ rhs.zeros`; afterwards `update_zeros(max(1, min(zeros, rhs.zeros))-1)`. -/
def hAdd (N : Nat) (a b : Number) : Number :=
  let ds := a.digits.take b.zeros ++
    (add_digits (a.digits.drop b.zeros) (b.digits.drop b.zeros)).1
  ⟨ds, update_zeros N ds (max 1 (min a.zeros b.zeros) - 1)⟩

/-- Loop of `Number::operator-=`, processed least-significant limb first;
`i` is the index of the head of the two lists.  At each index the source
first tests the early exit `i < rhs.zeros && carry == 1`; the returned
`Option Nat` records the index at which that exit fired (the limbs at
smaller indices are then left untouched).  Otherwise `res = carry +
digits[i] + ~rhs.digits[i]` (128-bit, with `+1` injected at index
`DIGITS-1`), limb takes `res` truncated, carry takes `res >> 64`. -/
def sub_digits (N z : Nat) : Nat → List Nat → List Nat → List Nat × Nat × Option Nat
  | _, [], _ => ([], 0, none)
  | _, _ :: _, [] => ([], 0, none)
  | i, d :: as, e :: bs =>
    match sub_digits N z (i + 1) as bs with
    | (rest, c, some j) => (d :: rest, c, some j)
    | (rest, c, none) =>
      if i < z ∧ c = 1 then (d :: rest, c, some i)
      else
        let res0 := (c + d + (B - 1 - e)) % DD
        let res := if i = N - 1 then (res0 + 1) % DD else res0
        (res % B :: rest, res / B, none)

/-- `Number::operator-=(rhs)`: the borrow loop; on early exit at index `i`
the source runs `update_zeros(min(zeros, i+1))`, on normal completion
`update_zeros()`. -/
def sub (N : Nat) (a b : Number) : Number :=
  match sub_digits N b.zeros 0 a.digits b.digits with
  | (ds, _, some i) => ⟨ds, update_zeros N ds (min a.zeros (i + 1))⟩
  | (ds, _, none) => ⟨ds, update_zeros N ds 0⟩

/-- `Number::operator/=(x)`: the long-division loop runs from index
`zeros` on (the skipped leading limbs are untouched), then
`update_zeros(zeros)` with the old `zeros` value. -/
def divScalar (N : Nat) (a : Number) (x : Nat) : Number :=
  let ds := a.digits.take a.zeros ++ (div_digits x 0 (a.digits.drop a.zeros)).1
  ⟨ds, update_zeros N ds a.zeros⟩

/-- State of the `ataninv` loop: `result`, `term`, `tmp`, and the
128-bit `denom`. -/
structure AtanState where
  result : Number
  term : Number
  tmp : Number
  denom : Nat
deriving DecidableEq, Repr

/-- One iteration of the `while (!term.is_zero())` body of `ataninv`. -/
def atan_step (N x2 : Nat) (s : AtanState) : AtanState :=
  let denom1 := (s.denom + 2) % DD
  let term1 := divScalar N s.term x2
  let tmp1 := set_to_div N s.tmp term1 denom1
  let result1 := sub N s.result tmp1
  let denom2 := (denom1 + 2) % DD
  let term2 := divScalar N term1 x2
  let tmp2 := set_to_div N tmp1 term2 denom2
  let result2 := hAdd N result1 tmp2
  ⟨result2, term2, tmp2, denom2⟩

/-- The `while` loop of `ataninv`, given enough fuel; once `term.is_zero()`
holds the state is returned unchanged (as the loop would exit). -/
def atan_loop (N x2 : Nat) : Nat → AtanState → AtanState
  | 0, s => s
  | fuel + 1, s => if is_zero N s.term then s else atan_loop N x2 fuel (atan_step N x2 s)

/-- Initial state of `ataninv(x)`: `result.set_inv(x); term = result;`
`tmp` default-constructed (all limbs zero, `zeros = DIGITS`); `denom = 1`. -/
def atan_init (N x : Nat) : AtanState :=
  let result := set_inv N x
  ⟨result, result, ⟨List.replicate N 0, N⟩, 1⟩

/-- `ataninv(x)` run with the given fuel bound on loop iterations. -/
def ataninv (N x fuel : Nat) : Number :=
  (atan_loop N (x * x) fuel (atan_init N x)).result

/-- The driver sequence of `main`:
`x = ataninv(5); x.mul4(); x -= ataninv(239); x.mul4();`. -/
def picalc (N fuel : Nat) : Number :=
  mul4 N (sub N (mul4 N (ataninv N 5 fuel)) (ataninv N 239 fuel))

/-- Numeric value of a limb vector: `Σ limb[i] * B^(len-1-i)`, i.e. the
big-endian base-`B` integer; the represented fraction is this over
`B^len`. -/
def val : List Nat → Nat
  | [] => 0
  | d :: ds => d * B ^ ds.length + val ds

/-- Every limb fits the 64-bit `Digit` type. -/
def bounded (ds : List Nat) : Prop := ∀ d ∈ ds, d < B

instance bounded.decide (ds : List Nat) : Decidable (bounded ds) :=
  List.decidableBAll _ ds

/-- Representation invariant of a `Number` at precision `N`: `N` limbs,
each below `B`, and the cached `zeros` equal to the exact leading-zero
count (what `update_zeros(0)` computes). -/
def Inv (N : Nat) (a : Number) : Prop :=
  a.digits.length = N ∧ bounded a.digits ∧ a.zeros = update_zeros N a.digits 0

instance Inv.decide (N : Nat) (a : Number) : Decidable (Inv N a) :=
  decidable_of_iff (a.digits.length = N ∧ bounded a.digits ∧
    a.zeros = update_zeros N a.digits 0) Iff.rfl

/-- The zero-count property as the specification states it: limbs before
`zeros` are all zero, and either `zeros = N` or the limb at `zeros` is
nonzero. -/
def zeros_spec (N : Nat) (a : Number) : Prop :=
  a.zeros ≤ N ∧ (∀ i, i < a.zeros → a.digits.getD i 1 = 0) ∧
    (a.zeros = N ∨ a.digits.getD a.zeros 0 ≠ 0)

/-! ### The leading-zero scan -/

/-- Exact number of leading zero entries of a list. -/
def zerosOf : List Nat → Nat
  | [] => 0
  | d :: ds => if d = 0 then zerosOf ds + 1 else 0

theorem zerosOf_le_length (ds : List Nat) : zerosOf ds ≤ ds.length := by
  induction ds with
  | nil => simp [zerosOf]
  | cons d ds ih =>
    by_cases h : d = 0 <;> simp [zerosOf, h]
    omega

theorem zerosOf_eq_length_iff (ds : List Nat) :
    zerosOf ds = ds.length ↔ ∀ d ∈ ds, d = 0 := by
  induction ds with
  | nil => simp [zerosOf]
  | cons d ds ih =>
    by_cases h : d = 0
    · simp [zerosOf, h, ih]
    · simp only [zerosOf, if_neg h, List.length_cons, List.mem_cons]
      constructor
      · omega
      · intro hall; exact absurd (hall d (Or.inl rfl)) h

theorem zerosOf_getD_zero {ds : List Nat} (i : Nat) (hi : i < zerosOf ds) :
    ds.getD i 1 = 0 := by
  induction ds generalizing i with
  | nil => simp [zerosOf] at hi
  | cons d ds ih =>
    by_cases h : d = 0
    · simp only [zerosOf, if_pos h] at hi
      cases i with
      | zero => simpa using h
      | succ i => simpa using ih i (by omega)
    · simp [zerosOf, h] at hi

theorem zerosOf_getD_ne {ds : List Nat} (h : zerosOf ds ≠ ds.length) :
    ds.getD (zerosOf ds) 0 ≠ 0 := by
  induction ds with
  | nil => simp [zerosOf] at h
  | cons d ds ih =>
    by_cases hd : d = 0
    · simp only [zerosOf, if_pos hd, List.length_cons] at h ⊢
      simpa using ih (by omega)
    · simp [zerosOf, hd]

theorem zerosOf_replicate (m : Nat) : zerosOf (List.replicate m 0) = m := by
  induction m with
  | zero => simp [zerosOf]
  | succ m ih => simp [List.replicate_succ, zerosOf, ih]

theorem zerosOf_replicate_append (m : Nat) (t : List Nat) :
    zerosOf (List.replicate m 0 ++ t) = m + zerosOf t := by
  induction m with
  | zero => simp
  | succ m ih => simp [List.replicate_succ, zerosOf, ih]; omega

theorem take_of_le_zerosOf {ds : List Nat} {m : Nat} (hm : m ≤ zerosOf ds) :
    ds.take m = List.replicate m 0 := by
  induction ds generalizing m with
  | nil =>
    simp [zerosOf] at hm
    simp [hm]
  | cons d ds ih =>
    by_cases hd : d = 0
    · cases m with
      | zero => simp
      | succ m =>
        simp only [zerosOf, if_pos hd] at hm
        simp [List.replicate_succ, hd, @ih m (by omega)]
    · simp [zerosOf, hd] at hm
      simp [hm]

/-- Characterization of the `update_zeros` scan helper in terms of the
exact zero count. -/
theorem firstNonzero_eq (N : Nat) (ds : List Nat) (i : Nat) :
    firstNonzero N ds i =
      if zerosOf ds = ds.length then N else i + zerosOf ds := by
  induction ds generalizing i with
  | nil => simp [firstNonzero, zerosOf]
  | cons d ds ih =>
    by_cases h : d = 0
    · have h1 : firstNonzero N (d :: ds) i = firstNonzero N ds (i + 1) := by
        simp [firstNonzero, h]
      rw [h1, ih]
      have h2 : zerosOf (d :: ds) = zerosOf ds + 1 := by simp [zerosOf, h]
      rw [h2, List.length_cons]
      by_cases hz : zerosOf ds = ds.length
      · simp [hz]
      · have hz2 : ¬ (zerosOf ds + 1 = ds.length + 1) := by omega
        simp only [if_neg hz, if_neg hz2]
        omega
    · have h1 : firstNonzero N (d :: ds) i = i := by simp [firstNonzero, h]
      have h2 : zerosOf (d :: ds) = 0 := by simp [zerosOf, h]
      have h3 : ¬ (zerosOf (d :: ds) = (d :: ds).length) := by
        rw [h2]; simp
      rw [h1, if_neg h3, h2]
      omega

/-- The scan of `update_zeros N ds 0`, rewritten via the exact count. -/
theorem update_zeros_zero_eq (N : Nat) (ds : List Nat) :
    update_zeros N ds 0 =
      if zerosOf ds = ds.length then N else zerosOf ds := by
  simp [update_zeros, firstNonzero_eq]

/-- Starting the scan below a known all-zero prefix gives the same result
as scanning from index 0. -/
theorem update_zeros_of_zero_take (N : Nat) (ds : List Nat) (m : Nat)
    (h : ds.take m = List.replicate m 0) :
    update_zeros N ds m = update_zeros N ds 0 := by
  have hsplit : ds = List.replicate m 0 ++ ds.drop m := by
    conv_lhs => rw [← List.take_append_drop m ds, h]
  have h1 : update_zeros N ds m =
      if zerosOf (ds.drop m) = (ds.drop m).length then N
      else m + zerosOf (ds.drop m) := by
    rw [update_zeros, firstNonzero_eq]
  have hz : zerosOf ds = m + zerosOf (ds.drop m) := by
    conv_lhs => rw [hsplit]
    rw [zerosOf_replicate_append]
  have hl : ds.length = m + (ds.drop m).length := by
    conv_lhs => rw [hsplit]
    simp
  rw [h1, update_zeros_zero_eq, hz, hl]
  by_cases hc : zerosOf (ds.drop m) = (ds.drop m).length
  · simp [hc]
  · have hc2 : ¬ (m + zerosOf (ds.drop m) = m + (ds.drop m).length) := by omega
    simp [hc, hc2]

/-- Any number whose `zeros` field is the result of a scan from an index
below a known all-zero prefix satisfies the exact zero-count property. -/
theorem zeros_spec_of_scan (N : Nat) (ds : List Nat) (m : Nat)
    (hlen : ds.length = N) (h : ds.take m = List.replicate m 0) :
    zeros_spec N ⟨ds, update_zeros N ds m⟩ := by
  rw [update_zeros_of_zero_take N ds m h, update_zeros_zero_eq]
  unfold zeros_spec
  dsimp only
  by_cases hz : zerosOf ds = ds.length
  · simp only [if_pos hz]
    refine ⟨le_refl N, ?_, by simp⟩
    intro i hi
    exact zerosOf_getD_zero i (by omega)
  · simp only [if_neg hz]
    refine ⟨?_, ?_, Or.inr (zerosOf_getD_ne hz)⟩
    · have := zerosOf_le_length ds
      omega
    · intro i hi
      exact zerosOf_getD_zero i hi

/-- A number with exact `zeros` (the `Inv` form) satisfies the stated
zero-count property. -/
theorem zeros_spec_of_inv {N : Nat} {a : Number} (h : Inv N a) :
    zeros_spec N a := by
  obtain ⟨hlen, _, hz⟩ := h
  have := zeros_spec_of_scan N a.digits 0 hlen (by simp)
  rw [← hz] at this
  exact this

/-- From the invariant, the limbs before `zeros` are all zero, as a
`take`/`replicate` equation. -/
theorem inv_take_zeros {N : Nat} {a : Number} (h : Inv N a) :
    a.digits.take a.zeros = List.replicate a.zeros 0 := by
  obtain ⟨hlen, _, hz⟩ := h
  rw [hz, update_zeros_zero_eq]
  by_cases hcase : zerosOf a.digits = a.digits.length
  · have hall := (zerosOf_eq_length_iff a.digits).1 hcase
    have hrep : a.digits = List.replicate N 0 := by
      rw [← hlen]
      exact List.eq_replicate_of_mem hall
    simp [if_pos hcase, hrep, List.take_replicate, zerosOf_replicate]
  · simp only [if_neg hcase]
    exact take_of_le_zerosOf (le_refl _)

theorem inv_zeros_le {N : Nat} {a : Number} (h : Inv N a) : a.zeros ≤ N := by
  obtain ⟨hlen, _, hz⟩ := h
  rw [hz, update_zeros_zero_eq]
  by_cases hcase : zerosOf a.digits = a.digits.length <;> simp [hcase]
  have := zerosOf_le_length a.digits
  omega

/-! ### Values of limb vectors -/

theorem B_pos : 0 < B := by decide

theorem DD_eq : DD = B * B := by decide

theorem val_append (s t : List Nat) :
    val (s ++ t) = val s * B ^ t.length + val t := by
  induction s with
  | nil => simp [val]
  | cons d s ih =>
    simp only [List.cons_append, val, List.length_append, List.append_eq, ih]
    rw [pow_add]
    ring

theorem val_replicate_zero (m : Nat) : val (List.replicate m 0) = 0 := by
  induction m with
  | zero => simp [val]
  | succ m ih => simp [List.replicate_succ, val, ih]

theorem val_lt {ds : List Nat} (h : bounded ds) : val ds < B ^ ds.length := by
  induction ds with
  | nil => simp [val]
  | cons d ds ih =>
    have hd : d < B := h d (List.mem_cons_self d ds)
    have hds : bounded ds := fun x hx => h x (List.mem_cons_of_mem d hx)
    have h1 := ih hds
    have hmul : d * B ^ ds.length ≤ (B - 1) * B ^ ds.length :=
      Nat.mul_le_mul_right _ (by omega)
    have hsum : (B - 1) * B ^ ds.length + B ^ ds.length = B ^ (ds.length + 1) := by
      have hB1 : B - 1 + 1 = B := by have := B_pos; omega
      rw [pow_succ]
      calc (B - 1) * B ^ ds.length + B ^ ds.length
          = (B - 1 + 1) * B ^ ds.length := by rw [Nat.add_mul, one_mul]
        _ = B * B ^ ds.length := by rw [hB1]
        _ = B ^ ds.length * B := Nat.mul_comm _ _
    simp only [val, List.length_cons]
    omega

theorem val_eq_zero_iff {ds : List Nat} : val ds = 0 ↔ ∀ d ∈ ds, d = 0 := by
  induction ds with
  | nil => simp [val]
  | cons d ds ih =>
    simp only [val, List.mem_cons, Nat.add_eq_zero, Nat.mul_eq_zero]
    have hB : 0 < B ^ ds.length := Nat.pos_pow_of_pos _ B_pos
    constructor
    · rintro ⟨h1, h2⟩
      intro x hx
      rcases hx with rfl | hx
      · omega
      · exact ih.1 h2 x hx
    · intro h
      refine ⟨Or.inl (h d (Or.inl rfl)), ih.2 fun x hx => h x (Or.inr hx)⟩

/-! ### The addition loop -/

theorem add_digits_spec (as bs : List Nat) (hlen : as.length = bs.length)
    (ha : bounded as) (hb : bounded bs) :
    (add_digits as bs).1.length = as.length ∧ bounded (add_digits as bs).1 ∧
      (add_digits as bs).2 ≤ 1 ∧
      val (add_digits as bs).1 + (add_digits as bs).2 * B ^ as.length =
        val as + val bs := by
  induction as generalizing bs with
  | nil =>
    cases bs with
    | nil => simp [add_digits, val, bounded]
    | cons b bs => simp at hlen
  | cons a as ih =>
    cases bs with
    | nil => simp at hlen
    | cons b bs =>
      have ha1 : a < B := ha a (List.mem_cons_self a as)
      have hb1 : b < B := hb b (List.mem_cons_self b bs)
      have has : bounded as := fun x hx => ha x (List.mem_cons_of_mem a hx)
      have hbs : bounded bs := fun x hx => hb x (List.mem_cons_of_mem b hx)
      have hlen2 : as.length = bs.length := by simpa using hlen
      obtain ⟨ihlen, ihbd, ihc, ihval⟩ := ih bs hlen2 has hbs
      set rest := (add_digits as bs).1 with hrest
      set c := (add_digits as bs).2 with hc
      have hres_lt : c + a + b < DD := by
        have : DD = 2 ^ 128 := rfl
        have hB : B = 2 ^ 64 := rfl
        omega
      have hstep : add_digits (a :: as) (b :: bs) =
          (((c + a + b) % DD) % B :: rest, (c + a + b) % DD / B) := by
        simp [add_digits, ← hrest, ← hc]
      have hmod : (c + a + b) % DD = c + a + b := Nat.mod_eq_of_lt hres_lt
      rw [hstep, hmod]
      set res := c + a + b with hres
      refine ⟨by simp [ihlen], ?_, ?_, ?_⟩
      · intro x hx
        rcases List.mem_cons.1 hx with rfl | hx
        · exact Nat.mod_lt _ B_pos
        · exact ihbd x hx
      · have hres2 : res < 2 * B := by
          have hB : B = 2 ^ 64 := rfl
          omega
        have := (Nat.div_lt_iff_lt_mul B_pos).2 hres2
        omega
      · simp only [val, ihlen, List.length_cons, pow_succ, ← hlen2]
        have hdm : res % B + B * (res / B) = res := Nat.mod_add_div res B
        have expand : res % B * B ^ as.length + val rest +
            res / B * (B ^ as.length * B) =
            res * B ^ as.length + val rest := by
          calc res % B * B ^ as.length + val rest + res / B * (B ^ as.length * B)
              = (res % B + B * (res / B)) * B ^ as.length + val rest := by ring
            _ = res * B ^ as.length + val rest := by rw [hdm]
        rw [expand, hres]
        have : (c + a + b) * B ^ as.length = c * B ^ as.length +
            a * B ^ as.length + b * B ^ as.length := by ring
        rw [this]
        omega

/-! ### The mul4 loop -/

theorem mul4_digits_spec (as : List Nat) (ha : bounded as) :
    (mul4_digits as).1.length = as.length ∧ bounded (mul4_digits as).1 ∧
      (mul4_digits as).2 ≤ 3 ∧
      val (mul4_digits as).1 + (mul4_digits as).2 * B ^ as.length =
        4 * val as := by
  induction as with
  | nil => simp [mul4_digits, val, bounded]
  | cons a as ih =>
    have ha1 : a < B := ha a (List.mem_cons_self a as)
    have has : bounded as := fun x hx => ha x (List.mem_cons_of_mem a hx)
    obtain ⟨ihlen, ihbd, ihc, ihval⟩ := ih has
    set rest := (mul4_digits as).1 with hrest
    set c := (mul4_digits as).2 with hc
    have hlt : c + 4 * a < DD := by
      have : DD = 2 ^ 128 := rfl
      have hB : B = 2 ^ 64 := rfl
      omega
    have hstep : mul4_digits (a :: as) =
        (((c + 4 * a) % DD) % B :: rest, (c + 4 * a) % DD / B) := by
      simp [mul4_digits, ← hrest, ← hc]
    have hmod : (c + 4 * a) % DD = c + 4 * a := Nat.mod_eq_of_lt hlt
    rw [hstep, hmod]
    set res := c + 4 * a with hres
    refine ⟨by simp [ihlen], ?_, ?_, ?_⟩
    · intro x hx
      rcases List.mem_cons.1 hx with rfl | hx
      · exact Nat.mod_lt _ B_pos
      · exact ihbd x hx
    · have hres4 : res < 4 * B := by
        have hB : B = 2 ^ 64 := rfl
        omega
      have := (Nat.div_lt_iff_lt_mul B_pos).2 hres4
      omega
    · simp only [val, ihlen, List.length_cons, pow_succ]
      have hdm : res % B + B * (res / B) = res := Nat.mod_add_div res B
      have expand : res % B * B ^ as.length + val rest +
          res / B * (B ^ as.length * B) =
          res * B ^ as.length + val rest := by
        calc res % B * B ^ as.length + val rest + res / B * (B ^ as.length * B)
            = (res % B + B * (res / B)) * B ^ as.length + val rest := by ring
          _ = res * B ^ as.length + val rest := by rw [hdm]
      rw [expand, hres]
      have : (c + 4 * a) * B ^ as.length = c * B ^ as.length +
          4 * (a * B ^ as.length) := by ring
      rw [this]
      omega

/-! ### The long-division loop -/

theorem div_digits_spec (d : Nat) (as : List Nat) (rem : Nat)
    (hd0 : 0 < d) (hdB : d ≤ B) (hrem : rem < d) (ha : bounded as) :
    (div_digits d rem as).1.length = as.length ∧
      bounded (div_digits d rem as).1 ∧ (div_digits d rem as).2 < d ∧
      d * val (div_digits d rem as).1 + (div_digits d rem as).2 =
        rem * B ^ as.length + val as := by
  induction as generalizing rem with
  | nil => simp [div_digits, val, bounded, hrem]
  | cons a as ih =>
    have ha1 : a < B := ha a (List.mem_cons_self a as)
    have has : bounded as := fun x hx => ha x (List.mem_cons_of_mem a hx)
    have hremB : rem * B % DD = rem * B := by
      apply Nat.mod_eq_of_lt
      rw [DD_eq]
      exact Nat.mul_lt_mul_of_lt_of_le (by omega) (le_refl B) B_pos
    have hnumlt : rem * B + a < DD := by
      rw [DD_eq]
      have h1 : rem * B + a < d * B := by
        have : (rem + 1) * B ≤ d * B := Nat.mul_le_mul_right _ (by omega)
        rw [Nat.add_mul, one_mul] at this
        omega
      have h2 : d * B ≤ B * B := Nat.mul_le_mul_right _ hdB
      omega
    have hnum : (rem * B % DD + a) % DD = rem * B + a := by
      rw [hremB]
      exact Nat.mod_eq_of_lt hnumlt
    have hstep : div_digits d rem (a :: as) =
        ((rem * B + a) / d % B :: (div_digits d ((rem * B + a) % d) as).1,
          (div_digits d ((rem * B + a) % d) as).2) := by
      simp [div_digits, hnum]
    set num := rem * B + a with hnumdef
    have hqB : num / d < B := by
      rw [Nat.div_lt_iff_lt_mul hd0]
      have h1 : num < d * B := by
        have : (rem + 1) * B ≤ d * B := Nat.mul_le_mul_right _ (by omega)
        rw [Nat.add_mul, one_mul] at this
        omega
      have hcomm : B * d = d * B := Nat.mul_comm _ _
      omega
    have hqmod : num / d % B = num / d := Nat.mod_eq_of_lt hqB
    have hrem2 : num % d < d := Nat.mod_lt _ hd0
    obtain ⟨ihlen, ihbd, ihr, ihval⟩ := ih (num % d) hrem2 has
    rw [hstep, hqmod]
    set rest := (div_digits d (num % d) as).1 with hrest
    set r := (div_digits d (num % d) as).2 with hr
    refine ⟨by simp [ihlen], ?_, ihr, ?_⟩
    · intro x hx
      rcases List.mem_cons.1 hx with rfl | hx
      · exact hqB
      · exact ihbd x hx
    · simp only [val, ihlen, List.length_cons, pow_succ]
      calc d * (num / d * B ^ as.length + val rest) + r
          = d * (num / d) * B ^ as.length + (d * val rest + r) := by ring
        _ = d * (num / d) * B ^ as.length + (num % d * B ^ as.length + val as) := by
            rw [ihval]
        _ = (d * (num / d) + num % d) * B ^ as.length + val as := by ring
        _ = num * B ^ as.length + val as := by rw [Nat.div_add_mod]
        _ = (rem * B + a) * B ^ as.length + val as := by rw [hnumdef]
        _ = rem * (B ^ as.length * B) + (a * B ^ as.length + val as) := by ring

/-- Dividing a run of leading zero limbs with zero incoming remainder
reproduces the zero limbs and keeps the remainder at zero. -/
theorem div_digits_replicate (d m : Nat) (t : List Nat) :
    div_digits d 0 (List.replicate m 0 ++ t) =
      (List.replicate m 0 ++ (div_digits d 0 t).1, (div_digits d 0 t).2) := by
  induction m with
  | zero => simp
  | succ m ih =>
    simp [List.replicate_succ, div_digits, ih]

/-! ### The reciprocal loop -/

theorem inv_digits_spec (x : Nat) (n : Nat) (rem : Nat)
    (hx0 : 0 < x) (hxB : x ≤ B) (hrem : rem < x) :
    (inv_digits x rem n).length = n ∧ bounded (inv_digits x rem n) ∧
      ∃ r, r < x ∧ x * val (inv_digits x rem n) + r = rem * B ^ n := by
  induction n generalizing rem with
  | zero =>
    exact ⟨by simp [inv_digits], by simp [inv_digits, bounded], rem, hrem,
      by simp [inv_digits, val]⟩
  | succ n ih =>
    have hremB : rem * B % DD = rem * B := by
      apply Nat.mod_eq_of_lt
      rw [DD_eq]
      exact Nat.mul_lt_mul_of_lt_of_le (by omega) (le_refl B) B_pos
    have hstep : inv_digits x rem (n + 1) =
        rem * B / x % B :: inv_digits x (rem * B % x) n := by
      simp [inv_digits, hremB]
    set nom := rem * B with hnom
    have hqB : nom / x < B := by
      rw [Nat.div_lt_iff_lt_mul hx0]
      have : (rem + 1) * B ≤ x * B := Nat.mul_le_mul_right _ (by omega)
      rw [Nat.add_mul, one_mul] at this
      have hcomm : B * x = x * B := Nat.mul_comm _ _
      omega
    have hqmod : nom / x % B = nom / x := Nat.mod_eq_of_lt hqB
    have hrem2 : nom % x < x := Nat.mod_lt _ hx0
    obtain ⟨ihlen, ihbd, r, hrx, ihval⟩ := ih (nom % x) hrem2
    rw [hstep, hqmod]
    refine ⟨by simp [ihlen], ?_, r, hrx, ?_⟩
    · intro y hy
      rcases List.mem_cons.1 hy with rfl | hy
      · exact hqB
      · exact ihbd y hy
    · simp only [val, ihlen, pow_succ]
      calc x * (nom / x * B ^ n + val (inv_digits x (nom % x) n)) + r
          = x * (nom / x) * B ^ n + (x * val (inv_digits x (nom % x) n) + r) := by
            ring
        _ = x * (nom / x) * B ^ n + nom % x * B ^ n := by rw [ihval]
        _ = (x * (nom / x) + nom % x) * B ^ n := by ring
        _ = nom * B ^ n := by rw [Nat.div_add_mod]
        _ = rem * (B ^ n * B) := by rw [hnom]; ring

/-! ### The subtraction loop -/

/-- Reference form of the borrow loop with no early exit: every limb pair
is processed.  Used to reason about `sub_digits`; on inputs where the
early exit fires, both produce the same limbs and carry. -/
def sub_full (N : Nat) : Nat → List Nat → List Nat → List Nat × Nat
  | _, [], _ => ([], 0)
  | _, _ :: _, [] => ([], 0)
  | i, d :: as, e :: bs =>
    let (rest, c) := sub_full N (i + 1) as bs
    let res0 := (c + d + (B - 1 - e)) % DD
    let res := if i = N - 1 then (res0 + 1) % DD else res0
    (res % B :: rest, res / B)

theorem sub_full_cons (N i d e : Nat) (as bs : List Nat) :
    sub_full N i (d :: as) (e :: bs) =
      ((if i = N - 1
          then (((sub_full N (i + 1) as bs).2 + d + (B - 1 - e)) % DD + 1) % DD
          else ((sub_full N (i + 1) as bs).2 + d + (B - 1 - e)) % DD) % B ::
            (sub_full N (i + 1) as bs).1,
        (if i = N - 1
          then (((sub_full N (i + 1) as bs).2 + d + (B - 1 - e)) % DD + 1) % DD
          else ((sub_full N (i + 1) as bs).2 + d + (B - 1 - e)) % DD) / B) :=
  rfl

theorem two_B_lt_DD : 2 * B < DD := by decide

theorem sub_full_spec (N : Nat) :
    ∀ (as bs : List Nat) (i d e : Nat),
    as.length = bs.length → i + as.length + 1 = N →
    bounded (d :: as) → bounded (e :: bs) →
    (sub_full N i (d :: as) (e :: bs)).1.length = as.length + 1 ∧
      bounded (sub_full N i (d :: as) (e :: bs)).1 ∧
      (sub_full N i (d :: as) (e :: bs)).2 ≤ 1 ∧
      val (sub_full N i (d :: as) (e :: bs)).1 +
          (sub_full N i (d :: as) (e :: bs)).2 * B ^ (as.length + 1) +
          val (e :: bs) =
        val (d :: as) + B ^ (as.length + 1) := by
  intro as
  induction as with
  | nil =>
    intro bs i d e hlen hiN ha hb
    have hbs : bs = [] := List.length_eq_zero.1 (by simpa using hlen.symm)
    subst hbs
    have hd : d < B := ha d (List.mem_cons_self d [])
    have he : e < B := hb e (List.mem_cons_self e [])
    have hiN1 : i = N - 1 := by
      simp only [List.length_nil] at hiN
      omega
    have hDD := two_B_lt_DD
    have h0 : sub_full N (i + 1) [] [] = ([], 0) := rfl
    have hres0lt : (sub_full N (i + 1) ([] : List Nat) []).2 + d + (B - 1 - e) < DD := by
      rw [h0]
      omega
    have hres1lt : (0 + d + (B - 1 - e)) % DD + 1 < DD := by
      rw [Nat.mod_eq_of_lt (by omega)]
      omega
    have hstep : sub_full N i [d] [e] =
        ((d + (B - 1 - e) + 1) % B :: [], (d + (B - 1 - e) + 1) / B) := by
      rw [sub_full_cons, if_pos hiN1, h0]
      rw [Nat.mod_eq_of_lt (by omega : 0 + d + (B - 1 - e) < DD)]
      rw [Nat.mod_eq_of_lt (by omega : 0 + d + (B - 1 - e) + 1 < DD)]
      norm_num
    simp only [hstep]
    set res := d + (B - 1 - e) + 1 with hres
    have hres2B : res < 2 * B := by omega
    have hdm : res % B + res / B * B = res := Nat.mod_add_div' res B
    have hcle : res / B ≤ 1 := by
      have := (Nat.div_lt_iff_lt_mul B_pos).2 hres2B
      omega
    refine ⟨by simp, ?_, hcle, ?_⟩
    · intro x hx
      rcases List.mem_cons.1 hx with rfl | hx
      · exact Nat.mod_lt _ B_pos
      · simp at hx
    · have hv1 : val [res % B] = res % B := by simp [val]
      have hv2 : val [e] = e := by simp [val]
      have hv3 : val [d] = d := by simp [val]
      have hp1 : B ^ (([] : List Nat).length + 1) = B := by simp
      rw [hv1, hv2, hv3, hp1]
      omega
  | cons a as ih =>
    intro bs i d e hlen hiN ha hb
    cases bs with
    | nil => simp at hlen
    | cons b bs =>
      have hlen2 : as.length = bs.length := by simpa using hlen
      have hd : d < B := ha d (List.mem_cons_self _ _)
      have he : e < B := hb e (List.mem_cons_self _ _)
      have has : bounded (a :: as) := fun x hx => ha x (List.mem_cons_of_mem d hx)
      have hbs : bounded (b :: bs) := fun x hx => hb x (List.mem_cons_of_mem e hx)
      obtain ⟨ihlen, ihbd, ihc, ihval⟩ :=
        ih bs (i + 1) a b hlen2 (by simp only [List.length_cons] at hiN; omega) has hbs
      have hiNe : i ≠ N - 1 := by
        simp only [List.length_cons] at hiN
        omega
      have hDD := two_B_lt_DD
      have hc := ihc
      have hreslt : (sub_full N (i + 1) (a :: as) (b :: bs)).2 + d + (B - 1 - e) < DD := by
        omega
      have hstep : sub_full N i (d :: a :: as) (e :: b :: bs) =
          (((sub_full N (i + 1) (a :: as) (b :: bs)).2 + d + (B - 1 - e)) % B ::
              (sub_full N (i + 1) (a :: as) (b :: bs)).1,
            ((sub_full N (i + 1) (a :: as) (b :: bs)).2 + d + (B - 1 - e)) / B) := by
        rw [sub_full_cons, if_neg hiNe, Nat.mod_eq_of_lt hreslt]
      simp only [hstep]
      set c := (sub_full N (i + 1) (a :: as) (b :: bs)).2 with hcdef
      set rest := (sub_full N (i + 1) (a :: as) (b :: bs)).1 with hrestdef
      set res := c + d + (B - 1 - e) with hres
      have hres2B : res < 2 * B := by omega
      have hcle : res / B ≤ 1 := by
        have := (Nat.div_lt_iff_lt_mul B_pos).2 hres2B
        omega
      have hrestlen : rest.length = as.length + 1 := by
        rw [hrestdef]
        simpa using ihlen
      refine ⟨by simp [hrestlen], ?_, hcle, ?_⟩
      · intro x hx
        rcases List.mem_cons.1 hx with rfl | hx
        · exact Nat.mod_lt _ B_pos
        · exact ihbd x hx
      · have hv1 : val (res % B :: rest) =
            res % B * B ^ (as.length + 1) + val rest := by
          rw [val, hrestlen]
        have hv2 : val (e :: b :: bs) =
            e * B ^ (as.length + 1) + val (b :: bs) := by
          rw [val, List.length_cons, hlen2]
        have hv3 : val (d :: a :: as) =
            d * B ^ (as.length + 1) + val (a :: as) := by
          rw [val, List.length_cons]
        have hpow : B ^ ((a :: as).length + 1) = B ^ (as.length + 1) * B := by
          rw [List.length_cons, pow_succ]
        rw [hv1, hv2, hv3, hpow]
        have expand : res % B * B ^ (as.length + 1) + val rest +
            res / B * (B ^ (as.length + 1) * B) =
            res * B ^ (as.length + 1) + val rest := by
          calc res % B * B ^ (as.length + 1) + val rest +
              res / B * (B ^ (as.length + 1) * B)
              = (res % B + res / B * B) * B ^ (as.length + 1) + val rest := by ring
            _ = res * B ^ (as.length + 1) + val rest := by rw [Nat.mod_add_div']
        have hsplit : res * B ^ (as.length + 1) = c * B ^ (as.length + 1) +
            d * B ^ (as.length + 1) + (B - 1 - e) * B ^ (as.length + 1) := by
          rw [hres]; ring
        have hEe : (B - 1 - e) * B ^ (as.length + 1) + e * B ^ (as.length + 1) =
            (B - 1) * B ^ (as.length + 1) := by
          rw [← Nat.add_mul]
          congr 1
          omega
        have hBP : (B - 1) * B ^ (as.length + 1) + B ^ (as.length + 1) =
            B ^ (as.length + 1) * B := by
          have hB1 : B - 1 + 1 = B := by have := B_pos; omega
          calc (B - 1) * B ^ (as.length + 1) + B ^ (as.length + 1)
              = (B - 1 + 1) * B ^ (as.length + 1) := by rw [Nat.add_mul, one_mul]
            _ = B * B ^ (as.length + 1) := by rw [hB1]
            _ = B ^ (as.length + 1) * B := Nat.mul_comm _ _
        omega

theorem sub_digits_cons (N z i d e : Nat) (as bs : List Nat) :
    sub_digits N z i (d :: as) (e :: bs) =
      match sub_digits N z (i + 1) as bs with
      | (rest, c, some j) => (d :: rest, c, some j)
      | (rest, c, none) =>
        if i < z ∧ c = 1 then (d :: rest, c, some i)
        else
          ((if i = N - 1 then ((c + d + (B - 1 - e)) % DD + 1) % DD
            else (c + d + (B - 1 - e)) % DD) % B :: rest,
            (if i = N - 1 then ((c + d + (B - 1 - e)) % DD + 1) % DD
              else (c + d + (B - 1 - e)) % DD) / B, none) :=
  rfl

/-- On a subtrahend whose limbs below index `z` are all zero, the early
exit is harmless: `sub_digits` produces the same limbs and carry as the
reference loop `sub_full`, and an exit at index `j` means the carry is 1,
`j < z`, and the limbs up to index `j` were left exactly as in the
minuend. -/
theorem sub_digits_eq (N z : Nat) :
    ∀ (as bs : List Nat) (i : Nat),
    as.length = bs.length → i + as.length = N → bounded as →
    (∀ j, j < bs.length → i + j < z → bs.getD j 1 = 0) →
    (sub_digits N z i as bs).1 = (sub_full N i as bs).1 ∧
      (sub_digits N z i as bs).2.1 = (sub_full N i as bs).2 ∧
      ∀ jj, (sub_digits N z i as bs).2.2 = some jj →
        i ≤ jj ∧ jj < z ∧ (sub_digits N z i as bs).2.1 = 1 ∧
          (sub_digits N z i as bs).1.take (jj + 1 - i) =
            as.take (jj + 1 - i) := by
  intro as
  induction as with
  | nil =>
    intro bs i hlen hiN ha hzero
    have hbs : bs = [] := List.length_eq_zero.1 (by simpa using hlen.symm)
    subst hbs
    refine ⟨rfl, rfl, ?_⟩
    intro jj h
    simp [sub_digits] at h
  | cons d as ih =>
    intro bs i hlen hiN ha hzero
    cases bs with
    | nil => simp at hlen
    | cons e bs =>
      have hlen2 : as.length = bs.length := by simpa using hlen
      have hiN2 : i + 1 + as.length = N := by
        simp only [List.length_cons] at hiN
        omega
      have hd : d < B := ha d (List.mem_cons_self _ _)
      have has : bounded as := fun x hx => ha x (List.mem_cons_of_mem d hx)
      have hzero2 : ∀ j, j < bs.length → i + 1 + j < z → bs.getD j 1 = 0 := by
        intro j hj hjz
        have := hzero (j + 1) (by simp; omega) (by omega)
        simpa using this
      obtain ⟨ihdig, ihcar, ihflag⟩ := ih bs (i + 1) hlen2 hiN2 has hzero2
      rcases hin : sub_digits N z (i + 1) as bs with ⟨rest, c, flag⟩
      rw [hin] at ihdig ihcar ihflag
      simp only at ihdig ihcar ihflag
      have hfull_inner_car : (sub_full N (i + 1) as bs).2 = c := ihcar.symm
      cases flag with
      | some j =>
        obtain ⟨hij, hjz, hcar1, htake⟩ := ihflag j rfl
        have hasne : as ≠ [] := by
          intro hnil
          subst hnil
          have hbsnil : bs = [] := List.length_eq_zero.1 hlen2.symm
          subst hbsnil
          simp [sub_digits] at hin
        have haslen : 1 ≤ as.length := by
          cases as with
          | nil => exact absurd rfl hasne
          | cons _ _ => simp
        have hiNe : i ≠ N - 1 := by omega
        have hiz : i < z := by omega
        have he0 : e = 0 := by
          have := hzero 0 (by simp) (by omega)
          simpa using this
        have hdB : ((1 : Nat) + d + (B - 1 - 0)) % DD = d + B := by
          have := two_B_lt_DD
          rw [Nat.mod_eq_of_lt (by omega)]
          omega
        have hfull : sub_full N i (d :: as) (e :: bs) =
            ((d + B) % B :: (sub_full N (i + 1) as bs).1, (d + B) / B) := by
          rw [sub_full_cons, if_neg hiNe, hfull_inner_car, hcar1, he0, hdB]
        have hmodB : (d + B) % B = d := by
          rw [Nat.add_mod_right d B]
          exact Nat.mod_eq_of_lt hd
        have hdivB : (d + B) / B = 1 := by
          rw [Nat.add_div_right d B_pos]
          rw [Nat.div_eq_of_lt hd]
        have hout : sub_digits N z i (d :: as) (e :: bs) = (d :: rest, c, some j) := by
          rw [sub_digits_cons, hin]
        rw [hout, hfull, hmodB, hdivB]
        refine ⟨by rw [ihdig], by simp [hcar1], ?_⟩
        intro jj hjj
        simp only [Option.some.injEq] at hjj
        subst hjj
        refine ⟨by omega, hjz, by simp [hcar1], ?_⟩
        have hstep : j + 1 - i = (j + 1 - (i + 1)) + 1 := by omega
        rw [hstep]
        simp only [List.take_succ_cons]
        rw [htake]
      | none =>
        by_cases hcond : i < z ∧ c = 1
        · have hasne : as ≠ [] := by
            intro hnil
            subst hnil
            have hbsnil : bs = [] := List.length_eq_zero.1 hlen2.symm
            subst hbsnil
            simp [sub_digits] at hin
            omega
          have haslen : 1 ≤ as.length := by
            cases as with
            | nil => exact absurd rfl hasne
            | cons _ _ => simp
          have hiNe : i ≠ N - 1 := by omega
          have he0 : e = 0 := by
            have := hzero 0 (by simp) (by omega)
            simpa using this
          have hdB : ((1 : Nat) + d + (B - 1 - 0)) % DD = d + B := by
            have := two_B_lt_DD
            rw [Nat.mod_eq_of_lt (by omega)]
            omega
          have hfull : sub_full N i (d :: as) (e :: bs) =
              ((d + B) % B :: (sub_full N (i + 1) as bs).1, (d + B) / B) := by
            rw [sub_full_cons, if_neg hiNe, hfull_inner_car, hcond.2, he0, hdB]
          have hmodB : (d + B) % B = d := by
            rw [Nat.add_mod_right d B]
            exact Nat.mod_eq_of_lt hd
          have hdivB : (d + B) / B = 1 := by
            rw [Nat.add_div_right d B_pos]
            rw [Nat.div_eq_of_lt hd]
          have hout : sub_digits N z i (d :: as) (e :: bs) =
              (d :: rest, c, some i) := by
            rw [sub_digits_cons, hin]
            simp [hcond]
          rw [hout, hfull, hmodB, hdivB]
          refine ⟨by rw [ihdig], by simp [hcond.2], ?_⟩
          intro jj hjj
          simp only [Option.some.injEq] at hjj
          subst hjj
          refine ⟨le_refl _, hcond.1, by simp [hcond.2], by simp⟩
        · have hout : sub_digits N z i (d :: as) (e :: bs) =
              ((if i = N - 1 then ((c + d + (B - 1 - e)) % DD + 1) % DD
                else (c + d + (B - 1 - e)) % DD) % B :: rest,
                (if i = N - 1 then ((c + d + (B - 1 - e)) % DD + 1) % DD
                  else (c + d + (B - 1 - e)) % DD) / B, none) := by
            rw [sub_digits_cons, hin]
            simp [hcond]
          have hfull : sub_full N i (d :: as) (e :: bs) =
              ((if i = N - 1 then ((c + d + (B - 1 - e)) % DD + 1) % DD
                else (c + d + (B - 1 - e)) % DD) % B ::
                  (sub_full N (i + 1) as bs).1,
                (if i = N - 1 then ((c + d + (B - 1 - e)) % DD + 1) % DD
                  else (c + d + (B - 1 - e)) % DD) / B) := by
            rw [sub_full_cons, hfull_inner_car]
          rw [hout, hfull]
          refine ⟨by rw [ihdig], rfl, ?_⟩
          intro jj hjj
          simp at hjj

/-- Subtracting an all-zero limb vector leaves the limbs unchanged (the
borrow loop injects `+1` and adds `~0 = B-1` at every position, so the
carry stays 1 and each limb is rewritten to itself). -/
theorem sub_full_zero (N : Nat) :
    ∀ (as : List Nat) (i d : Nat), i + as.length + 1 = N → bounded (d :: as) →
    (sub_full N i (d :: as) (List.replicate (as.length + 1) 0)).1 = d :: as ∧
      (sub_full N i (d :: as) (List.replicate (as.length + 1) 0)).2 = 1 := by
  intro as
  induction as with
  | nil =>
    intro i d hiN ha
    have hd : d < B := ha d (List.mem_cons_self _ _)
    have hiN1 : i = N - 1 := by
      simp only [List.length_nil] at hiN
      omega
    have h0 : sub_full N (i + 1) ([] : List Nat) [] = ([], 0) := rfl
    have hDD := two_B_lt_DD
    have hstep : sub_full N i [d] (List.replicate 1 0) =
        ((d + B) % B :: [], (d + B) / B) := by
      have hrep : List.replicate 1 (0 : Nat) = [0] := rfl
      rw [hrep, sub_full_cons, if_pos hiN1, h0]
      have h1 : ((0 : Nat) + d + (B - 1 - 0)) % DD = d + (B - 1) := by
        rw [Nat.mod_eq_of_lt (by omega)]
        omega
      rw [h1]
      have h2 : (d + (B - 1) + 1) % DD = d + B := by
        rw [Nat.mod_eq_of_lt (by omega)]
        omega
      rw [h2]
    simp only [List.length_nil, Nat.zero_add]
    rw [hstep]
    have hmodB : (d + B) % B = d := by
      rw [Nat.add_mod_right d B]
      exact Nat.mod_eq_of_lt hd
    have hdivB : (d + B) / B = 1 := by
      rw [Nat.add_div_right d B_pos]
      rw [Nat.div_eq_of_lt hd]
    rw [hmodB, hdivB]
    exact ⟨rfl, rfl⟩
  | cons a as ih =>
    intro i d hiN ha
    have hd : d < B := ha d (List.mem_cons_self _ _)
    have has : bounded (a :: as) := fun x hx => ha x (List.mem_cons_of_mem d hx)
    have hiN2 : i + 1 + as.length + 1 = N := by
      simp only [List.length_cons] at hiN
      omega
    obtain ⟨ihdig, ihcar⟩ := ih (i + 1) a hiN2 has
    have hiNe : i ≠ N - 1 := by
      simp only [List.length_cons] at hiN
      omega
    have hDD := two_B_lt_DD
    have hrep : List.replicate ((a :: as).length + 1) (0 : Nat) =
        0 :: List.replicate (as.length + 1) 0 := by
      simp [List.replicate_succ]
    have hdB : ((1 : Nat) + d + (B - 1 - 0)) % DD = d + B := by
      rw [Nat.mod_eq_of_lt (by omega)]
      omega
    have hstep : sub_full N i (d :: a :: as) (List.replicate ((a :: as).length + 1) 0) =
        ((d + B) % B :: (sub_full N (i + 1) (a :: as) (List.replicate (as.length + 1) 0)).1,
          (d + B) / B) := by
      rw [hrep, sub_full_cons, if_neg hiNe, ihcar, hdB]
    rw [hstep]
    have hmodB : (d + B) % B = d := by
      rw [Nat.add_mod_right d B]
      exact Nat.mod_eq_of_lt hd
    have hdivB : (d + B) / B = 1 := by
      rw [Nat.add_div_right d B_pos]
      rw [Nat.div_eq_of_lt hd]
    rw [hmodB, hdivB, ihdig]
    exact ⟨rfl, rfl⟩

/-! ### Operation-level helpers -/

theorem inv_take_le {N : Nat} {a : Number} (h : Inv N a) {m : Nat}
    (hm : m ≤ a.zeros) : a.digits.take m = List.replicate m 0 := by
  have h1 := inv_take_zeros h
  have h2 : a.digits.take m = (a.digits.take a.zeros).take m := by
    rw [List.take_take, inf_eq_left.2 hm]
  rw [h2, h1, List.take_replicate, inf_eq_left.2 hm]

theorem bounded_of_subset {s t : List Nat} (h : s ⊆ t) (hb : bounded t) :
    bounded s :=
  fun x hx => hb x (h hx)

theorem bounded_append {s t : List Nat} (hs : bounded s) (ht : bounded t) :
    bounded (s ++ t) := by
  intro x hx
  rcases List.mem_append.1 hx with h | h
  · exact hs x h
  · exact ht x h

theorem bounded_replicate (m : Nat) : bounded (List.replicate m 0) := by
  intro x hx
  have := List.eq_of_mem_replicate hx
  subst this
  exact B_pos

theorem inv_ext {N : Nat} {a : Number} {ds : List Nat} {z : Nat}
    (h1 : a.digits = ds) (h2 : a.zeros = z) (h : Inv N ⟨ds, z⟩) : Inv N a := by
  have : a = ⟨ds, z⟩ := by
    cases a
    simp_all
  rw [this]
  exact h

theorem zeros_spec_ext {N : Nat} {a : Number} {ds : List Nat} {z : Nat}
    (h1 : a.digits = ds) (h2 : a.zeros = z) (h : zeros_spec N ⟨ds, z⟩) :
    zeros_spec N a := by
  have : a = ⟨ds, z⟩ := by
    cases a
    simp_all
  rw [this]
  exact h

theorem inv_mk (N : Nat) (ds : List Nat) (m : Nat) (hlen : ds.length = N)
    (hbd : bounded ds) (h : ds.take m = List.replicate m 0) :
    Inv N ⟨ds, update_zeros N ds m⟩ :=
  ⟨hlen, hbd, by
    show update_zeros N ds m = update_zeros N ds 0
    exact update_zeros_of_zero_take N ds m h⟩

theorem zero_range_length (ds : List Nat) (lo hi : Nat) :
    (zero_range ds lo hi).length = ds.length := by
  simp [zero_range, List.length_mapIdx]

theorem zero_range_take (ds : List Nat) (lo hi : Nat)
    (hpre : ds.take lo = List.replicate lo 0) (hhi : hi ≤ ds.length) :
    (zero_range ds lo hi).take hi = List.replicate hi 0 := by
  apply List.ext_getElem
  · simp only [List.length_take, zero_range_length, List.length_replicate]
    omega
  · intro n h1 h2
    have hn : n < hi := by
      simp only [List.length_take, zero_range_length] at h1
      omega
    have hnd : n < ds.length := by omega
    have hzrl : n < (zero_range ds lo hi).length := by
      rw [zero_range_length]
      exact hnd
    rw [List.getElem_take, List.getElem_replicate]
    have hmap := List.get_mapIdx ds
      (fun i d => if lo ≤ i ∧ i < hi then 0 else d) n hnd
    rw [List.get_eq_getElem, List.get_eq_getElem] at hmap
    have hzr : (zero_range ds lo hi)[n] =
        if lo ≤ n ∧ n < hi then 0 else ds[n] := hmap
    rw [hzr]
    by_cases hlo : lo ≤ n
    · simp [hlo, hn]
    · have hnlo : n < lo := by omega
      have htk2 : n < (ds.take lo).length := by
        simp only [List.length_take]
        omega
      have htk : (ds.take lo)[n] = 0 := by
        rw [List.getElem_of_eq hpre]
        exact List.getElem_replicate _ _
      have hteq : (ds.take lo)[n] = ds[n] := List.getElem_take _
      have hds0 : ds[n] = 0 := hteq.symm.trans htk
      simp [hlo, hds0]

/-- Unfolded form of `operator+=`. -/
theorem hAdd_def (N : Nat) (a b : Number) :
    hAdd N a b =
      ⟨a.digits.take b.zeros ++
          (add_digits (a.digits.drop b.zeros) (b.digits.drop b.zeros)).1,
        update_zeros N
          (a.digits.take b.zeros ++
            (add_digits (a.digits.drop b.zeros) (b.digits.drop b.zeros)).1)
          (max 1 (min a.zeros b.zeros) - 1)⟩ := rfl

/-- Unfolded form of `operator/=`. -/
theorem divScalar_def (N : Nat) (a : Number) (x : Nat) :
    divScalar N a x =
      ⟨a.digits.take a.zeros ++ (div_digits x 0 (a.digits.drop a.zeros)).1,
        update_zeros N
          (a.digits.take a.zeros ++ (div_digits x 0 (a.digits.drop a.zeros)).1)
          a.zeros⟩ := rfl

/-- Unfolded form of `set_to_div`. -/
theorem set_to_div_def (N : Nat) (a x : Number) (d : Nat) :
    set_to_div N a x d =
      ⟨(zero_range a.digits a.zeros x.zeros).take x.zeros ++
          (div_digits d 0 (x.digits.drop x.zeros)).1,
        update_zeros N
          ((zero_range a.digits a.zeros x.zeros).take x.zeros ++
            (div_digits d 0 (x.digits.drop x.zeros)).1)
          x.zeros⟩ := rfl

/-- Unfolded form of `mul4`. -/
theorem mul4_def (N : Nat) (a : Number) :
    mul4 N a = ⟨(mul4_digits a.digits).1,
      update_zeros N (mul4_digits a.digits).1 0⟩ := rfl

/-- Unfolded form of `set_inv`. -/
theorem set_inv_def (N x : Nat) :
    set_inv N x = ⟨inv_digits x 1 N, update_zeros N (inv_digits x 1 N) 0⟩ := rfl

/-- Case analysis of `operator-=`'s two exits. -/
theorem sub_cases (N : Nat) (a b : Number) :
    (sub N a b).digits = (sub_digits N b.zeros 0 a.digits b.digits).1 ∧
      ((∃ i, (sub_digits N b.zeros 0 a.digits b.digits).2.2 = some i ∧
          (sub N a b).zeros =
            update_zeros N (sub_digits N b.zeros 0 a.digits b.digits).1
              (min a.zeros (i + 1))) ∨
        ((sub_digits N b.zeros 0 a.digits b.digits).2.2 = none ∧
          (sub N a b).zeros =
            update_zeros N (sub_digits N b.zeros 0 a.digits b.digits).1 0)) := by
  unfold sub
  rcases h : sub_digits N b.zeros 0 a.digits b.digits with ⟨ds, c, flag⟩
  cases flag with
  | some i =>
    refine ⟨rfl, Or.inl ⟨i, rfl, rfl⟩⟩
  | none =>
    refine ⟨rfl, Or.inr ⟨rfl, rfl⟩⟩

/-! ### Specifications of the operations -/

theorem set_zero_spec (N : Nat) :
    Inv N (set_zero N) ∧ zeros_spec N (set_zero N) := by
  have hupz : update_zeros N (List.replicate N 0) 0 = N := by
    rw [update_zeros_zero_eq]
    simp [zerosOf_replicate]
  constructor
  · exact ⟨by simp [set_zero], bounded_replicate N, by
      show N = update_zeros N (List.replicate N 0) 0
      rw [hupz]⟩
  · have := zeros_spec_of_scan N (List.replicate N 0) 0 (by simp) (by simp)
    rw [hupz] at this
    exact this

theorem set_inv_spec {N x : Nat} (hx2 : 2 ≤ x) (hxB : x ≤ B) :
    Inv N (set_inv N x) ∧ zeros_spec N (set_inv N x) ∧
      (set_inv N x).digits.length = N ∧ bounded (set_inv N x).digits ∧
      val (set_inv N x).digits = B ^ N / x ∧
      x * val (set_inv N x).digits ≤ B ^ N ∧
      B ^ N < x * (val (set_inv N x).digits + 1) := by
  obtain ⟨hlen, hbd, r, hrx, hval⟩ :=
    inv_digits_spec x N 1 (by omega) hxB (by omega)
  rw [one_mul] at hval
  have hvq : val (inv_digits x 1 N) = B ^ N / x := by
    have h1 : B ^ N = x * val (inv_digits x 1 N) + r := hval.symm
    rw [h1, Nat.mul_add_div (by omega), Nat.div_eq_of_lt hrx]
    omega
  rw [set_inv_def]
  refine ⟨inv_mk N _ 0 hlen hbd (by simp), ?_, hlen, hbd, hvq, ?_, ?_⟩
  · exact zeros_spec_of_scan N _ 0 hlen (by simp)
  · show x * val (inv_digits x 1 N) ≤ B ^ N
    omega
  · show B ^ N < x * (val (inv_digits x 1 N) + 1)
    have hx3 : x * (val (inv_digits x 1 N) + 1) =
        x * val (inv_digits x 1 N) + x := by
      ring
    omega

theorem mul4_spec {N : Nat} {a : Number} (ha : Inv N a) :
    Inv N (mul4 N a) ∧ zeros_spec N (mul4 N a) ∧
      (mul4 N a).digits.length = N ∧ bounded (mul4 N a).digits ∧
      val (mul4 N a).digits = 4 * val a.digits % B ^ N := by
  obtain ⟨halen, habd, _⟩ := ha
  obtain ⟨hlen, hbd, hc, hval⟩ := mul4_digits_spec a.digits habd
  rw [halen] at hlen hval
  have hvlt : val (mul4_digits a.digits).1 < B ^ N := by
    have := val_lt hbd
    rw [hlen] at this
    exact this
  have hmod : val (mul4_digits a.digits).1 = 4 * val a.digits % B ^ N := by
    have h1 : val (mul4_digits a.digits).1 +
        B ^ N * (mul4_digits a.digits).2 = 4 * val a.digits := by
      rw [Nat.mul_comm (B ^ N)]
      exact hval
    have key := (Nat.div_mod_unique (Nat.pos_pow_of_pos N B_pos)).2 ⟨h1, hvlt⟩
    exact key.2.symm
  rw [mul4_def]
  exact ⟨inv_mk N _ 0 hlen hbd (by simp), zeros_spec_of_scan N _ 0 hlen (by simp),
    hlen, hbd, hmod⟩

theorem divScalar_spec {N : Nat} {a : Number} {x : Nat} (ha : Inv N a)
    (hx0 : 0 < x) (hxB : x ≤ B) :
    Inv N (divScalar N a x) ∧ zeros_spec N (divScalar N a x) ∧
      (divScalar N a x).digits.length = N ∧ bounded (divScalar N a x).digits ∧
      val (divScalar N a x).digits = val a.digits / x := by
  have haz := inv_zeros_le ha
  have halen := ha.1
  have habd := ha.2.1
  have htake := inv_take_zeros ha
  obtain ⟨hqlen, hqbd, hqr, hqval⟩ := div_digits_spec x (a.digits.drop a.zeros) 0
    hx0 hxB (by omega) (bounded_of_subset (List.drop_subset _ _) habd)
  have hdroplen : (a.digits.drop a.zeros).length = N - a.zeros := by
    rw [List.length_drop, halen]
  have htklen : (a.digits.take a.zeros).length = a.zeros := by
    rw [List.length_take, halen, inf_eq_left.2 haz]
  have hdslen : (a.digits.take a.zeros ++
      (div_digits x 0 (a.digits.drop a.zeros)).1).length = N := by
    rw [List.length_append, htklen, hqlen, hdroplen]
    omega
  have hdsbd : bounded (a.digits.take a.zeros ++
      (div_digits x 0 (a.digits.drop a.zeros)).1) :=
    bounded_append (bounded_of_subset (List.take_subset _ _) habd) hqbd
  have hdstake : (a.digits.take a.zeros ++
      (div_digits x 0 (a.digits.drop a.zeros)).1).take a.zeros =
      List.replicate a.zeros 0 := by
    rw [List.take_append_of_le_length (by rw [htklen]), List.take_take,
      inf_eq_left.2 (le_refl _), htake]
  have hvala : val a.digits = val (a.digits.drop a.zeros) := by
    conv_lhs => rw [← List.take_append_drop a.zeros a.digits]
    rw [val_append, htake, val_replicate_zero]
    simp
  have hvalds : val (a.digits.take a.zeros ++
      (div_digits x 0 (a.digits.drop a.zeros)).1) =
      val (div_digits x 0 (a.digits.drop a.zeros)).1 := by
    rw [val_append, htake, val_replicate_zero]
    simp
  have hq : val (div_digits x 0 (a.digits.drop a.zeros)).1 = val a.digits / x := by
    rw [hvala]
    have h1 : val (a.digits.drop a.zeros) =
        x * val (div_digits x 0 (a.digits.drop a.zeros)).1 +
          (div_digits x 0 (a.digits.drop a.zeros)).2 := by
      rw [hqval]
      simp
    rw [h1, Nat.mul_add_div hx0, Nat.div_eq_of_lt hqr]
    omega
  rw [divScalar_def]
  exact ⟨inv_mk N _ a.zeros hdslen hdsbd hdstake,
    zeros_spec_of_scan N _ a.zeros hdslen hdstake, hdslen, hdsbd,
    by rw [hvalds, hq]⟩

theorem set_to_div_spec {N : Nat} {a x : Number} {d : Nat} (ha : Inv N a)
    (hx : Inv N x) (hd0 : 0 < d) (hdB : d ≤ B) :
    Inv N (set_to_div N a x d) ∧ zeros_spec N (set_to_div N a x d) ∧
      (set_to_div N a x d).digits.length = N ∧
      bounded (set_to_div N a x d).digits ∧
      (set_to_div N a x d).digits = (div_digits d 0 x.digits).1 ∧
      val (set_to_div N a x d).digits = val x.digits / d := by
  have hxz := inv_zeros_le hx
  have halen := ha.1
  have hxlen := hx.1
  have hxbd := hx.2.1
  have hxtake := inv_take_zeros hx
  have hxsplit : x.digits = List.replicate x.zeros 0 ++ x.digits.drop x.zeros := by
    conv_lhs => rw [← List.take_append_drop x.zeros x.digits, hxtake]
  have hzr : (zero_range a.digits a.zeros x.zeros).take x.zeros =
      List.replicate x.zeros 0 :=
    zero_range_take a.digits a.zeros x.zeros (inv_take_zeros ha)
      (by rw [halen]; omega)
  have hnaive : (div_digits d 0 x.digits).1 =
      List.replicate x.zeros 0 ++ (div_digits d 0 (x.digits.drop x.zeros)).1 := by
    conv_lhs => rw [hxsplit, div_digits_replicate]
  have hds : (set_to_div N a x d).digits =
      List.replicate x.zeros 0 ++ (div_digits d 0 (x.digits.drop x.zeros)).1 := by
    rw [set_to_div_def]
    show (zero_range a.digits a.zeros x.zeros).take x.zeros ++ _ = _
    rw [hzr]
  obtain ⟨hqlen, hqbd, hqr, hqval⟩ := div_digits_spec d x.digits 0 hd0 hdB
    (by omega) hxbd
  have hdslen : (set_to_div N a x d).digits.length = N := by
    rw [hds, List.length_append, List.length_replicate]
    have h2 : (div_digits d 0 (x.digits.drop x.zeros)).1.length =
        (x.digits.drop x.zeros).length :=
      (div_digits_spec d (x.digits.drop x.zeros) 0 hd0 hdB (by omega)
        (bounded_of_subset (List.drop_subset _ _) hxbd)).1
    rw [h2, List.length_drop, hxlen]
    omega
  have hdsbd : bounded (set_to_div N a x d).digits := by
    rw [hds]
    exact bounded_append (bounded_replicate _)
      (div_digits_spec d (x.digits.drop x.zeros) 0 hd0 hdB (by omega)
        (bounded_of_subset (List.drop_subset _ _) hxbd)).2.1
  have hdseq : (set_to_div N a x d).digits = (div_digits d 0 x.digits).1 := by
    rw [hds, hnaive]
  have hdsval : val (set_to_div N a x d).digits = val x.digits / d := by
    rw [hdseq]
    have h1 : val x.digits = d * val (div_digits d 0 x.digits).1 +
        (div_digits d 0 x.digits).2 := by
      rw [hqval]
      simp
    rw [h1, Nat.mul_add_div hd0, Nat.div_eq_of_lt hqr]
    omega
  have hdstake : ((zero_range a.digits a.zeros x.zeros).take x.zeros ++
      (div_digits d 0 (x.digits.drop x.zeros)).1).take x.zeros =
      List.replicate x.zeros 0 := by
    rw [List.take_append_of_le_length (by
      rw [List.length_take, zero_range_length, halen]
      omega), List.take_take, inf_eq_left.2 (le_refl _), hzr]
  refine ⟨?_, ?_, hdslen, hdsbd, hdseq, hdsval⟩
  · rw [set_to_div_def]
    apply inv_mk N _ x.zeros
    · have := hdslen
      rw [set_to_div_def] at this
      exact this
    · have := hdsbd
      rw [set_to_div_def] at this
      exact this
    · exact hdstake
  · rw [set_to_div_def]
    apply zeros_spec_of_scan N _ x.zeros
    · have := hdslen
      rw [set_to_div_def] at this
      exact this
    · exact hdstake

theorem hAdd_spec {N : Nat} {a b : Number} (ha : Inv N a) (hb : Inv N b) :
    Inv N (hAdd N a b) ∧ zeros_spec N (hAdd N a b) ∧
      (hAdd N a b).digits.length = N ∧ bounded (hAdd N a b).digits := by
  have haz := inv_zeros_le ha
  have hbz := inv_zeros_le hb
  have halen := ha.1
  have hblen := hb.1
  have habd := ha.2.1
  have hbbd := hb.2.1
  have hdroplen : (a.digits.drop b.zeros).length = (b.digits.drop b.zeros).length := by
    simp [List.length_drop, halen, hblen]
  obtain ⟨hslen, hsbd, hsc, hsval⟩ := add_digits_spec _ _ hdroplen
    (bounded_of_subset (List.drop_subset _ _) habd)
    (bounded_of_subset (List.drop_subset _ _) hbbd)
  have htklen : (a.digits.take b.zeros).length = b.zeros := by
    rw [List.length_take, halen, inf_eq_left.2 hbz]
  have hdslen : (a.digits.take b.zeros ++
      (add_digits (a.digits.drop b.zeros) (b.digits.drop b.zeros)).1).length = N := by
    rw [List.length_append, htklen, hslen, List.length_drop, halen]
    omega
  have hdsbd : bounded (a.digits.take b.zeros ++
      (add_digits (a.digits.drop b.zeros) (b.digits.drop b.zeros)).1) :=
    bounded_append (bounded_of_subset (List.take_subset _ _) habd) hsbd
  have hdstake : (a.digits.take b.zeros ++
      (add_digits (a.digits.drop b.zeros) (b.digits.drop b.zeros)).1).take
        (max 1 (min a.zeros b.zeros) - 1) =
      List.replicate (max 1 (min a.zeros b.zeros) - 1) 0 := by
    by_cases hmin : min a.zeros b.zeros = 0
    · rw [hmin]
      simp
    · have hm1 : max 1 (min a.zeros b.zeros) - 1 = min a.zeros b.zeros - 1 := by
        omega
      rw [hm1]
      have hmb : min a.zeros b.zeros - 1 ≤ b.zeros := by omega
      have hma : min a.zeros b.zeros - 1 ≤ a.zeros := by omega
      rw [List.take_append_of_le_length (by rw [htklen]; exact hmb),
        List.take_take, inf_eq_left.2 hmb]
      exact inv_take_le ha hma
  rw [hAdd_def]
  exact ⟨inv_mk N _ _ hdslen hdsbd hdstake,
    zeros_spec_of_scan N _ _ hdslen hdstake, hdslen, hdsbd⟩

/-- Identity: adding a `Number` whose `zeros` is `N` (value zero) leaves
the target unchanged, limbs and `zeros` field alike. -/
theorem hAdd_zero_id {N : Nat} {a b : Number} (ha : Inv N a) (_hb : Inv N b)
    (hz : b.zeros = N) : hAdd N a b = a := by
  have haz := inv_zeros_le ha
  have halen := ha.1
  have hadrop : a.digits.drop b.zeros = [] := by
    rw [hz, ← halen, List.drop_length]
  have hatake : a.digits.take b.zeros = a.digits := by
    rw [hz, ← halen, List.take_length]
  have hadd0 : add_digits ([] : List Nat) (b.digits.drop b.zeros) = ([], 0) := rfl
  have hds : a.digits.take b.zeros ++
      (add_digits (a.digits.drop b.zeros) (b.digits.drop b.zeros)).1 = a.digits := by
    rw [hadrop, hatake, hadd0]
    simp
  have hmin : min a.zeros b.zeros = a.zeros := by
    rw [hz]
    omega
  have hupz : update_zeros N a.digits (max 1 (min a.zeros b.zeros) - 1) = a.zeros := by
    rw [hmin]
    have hpre : a.digits.take (max 1 a.zeros - 1) =
        List.replicate (max 1 a.zeros - 1) 0 :=
      inv_take_le ha (by omega)
    rw [update_zeros_of_zero_take N a.digits _ hpre]
    exact ha.2.2.symm
  have : hAdd N a b = ⟨a.digits, a.zeros⟩ := by
    rw [hAdd_def]
    rw [hds, hupz]
  rw [this]

theorem sub_spec {N : Nat} {a b : Number} (ha : Inv N a) (hb : Inv N b) :
    (sub N a b).digits.length = N ∧ bounded (sub N a b).digits ∧
      Inv N (sub N a b) ∧ zeros_spec N (sub N a b) ∧
      (val b.digits ≤ val a.digits →
        val (sub N a b).digits = val a.digits - val b.digits) := by
  have halen := ha.1
  have hblen := hb.1
  have habd := ha.2.1
  have hbbd := hb.2.1
  obtain ⟨hdigeq, hzcase⟩ := sub_cases N a b
  have hzero : ∀ j, j < b.digits.length → 0 + j < b.zeros →
      b.digits.getD j 1 = 0 := by
    intro j _ hj
    exact (zeros_spec_of_inv hb).2.1 j (by omega)
  obtain ⟨heqdig, heqcar, hflag⟩ := sub_digits_eq N b.zeros a.digits b.digits 0
    (halen.trans hblen.symm) (by simpa using halen) habd hzero
  have hfull_dig : (sub N a b).digits = (sub_full N 0 a.digits b.digits).1 :=
    hdigeq.trans heqdig
  have hmain : (sub N a b).digits.length = N ∧ bounded (sub N a b).digits ∧
      (val b.digits ≤ val a.digits →
        val (sub N a b).digits = val a.digits - val b.digits) := by
    cases hAD : a.digits with
    | nil =>
      have hN0 : N = 0 := by
        rw [hAD] at halen
        simpa using halen.symm
      have hBD : b.digits = [] := by
        have := hblen
        rw [hN0] at this
        exact List.length_eq_zero.1 this
      have hds : (sub N a b).digits = [] := by
        rw [hfull_dig, hAD]
        rfl
      refine ⟨by rw [hds, hN0]; rfl, by rw [hds]; intro x hx; simp at hx, ?_⟩
      intro _
      simp [hds, hAD, hBD, val]
    | cons d as =>
      cases hBD : b.digits with
      | nil =>
        exfalso
        rw [hAD] at halen
        rw [hBD] at hblen
        simp only [List.length_cons, List.length_nil] at halen hblen
        omega
      | cons e bs =>
        have hlentl : as.length = bs.length := by
          have h1 := halen
          have h2 := hblen
          rw [hAD] at h1
          rw [hBD] at h2
          simp only [List.length_cons] at h1 h2
          omega
        have hNlen : 0 + as.length + 1 = N := by
          have h1 := halen
          rw [hAD] at h1
          simp only [List.length_cons] at h1
          omega
        have habd2 : bounded (d :: as) := by rw [← hAD]; exact habd
        have hbbd2 : bounded (e :: bs) := by rw [← hBD]; exact hbbd
        obtain ⟨hflen, hfbd, hfc, hfval⟩ :=
          sub_full_spec N as bs 0 d e hlentl hNlen habd2 hbbd2
        have hlenN : as.length + 1 = N := by omega
        have hdigN : (sub N a b).digits.length = N := by
          rw [hfull_dig, hAD, hBD, hflen, hlenN]
        have hdigbd : bounded (sub N a b).digits := by
          rw [hfull_dig, hAD, hBD]
          exact hfbd
        refine ⟨hdigN, hdigbd, ?_⟩
        intro hle
        have hvlt : val (sub_full N 0 (d :: as) (e :: bs)).1 < B ^ (as.length + 1) := by
          have := val_lt hfbd
          rw [hflen] at this
          exact this
        have hgoal : val (sub_full N 0 (d :: as) (e :: bs)).1 =
            val (d :: as) - val (e :: bs) := by
          rcases (by omega : (sub_full N 0 (d :: as) (e :: bs)).2 = 0 ∨
              (sub_full N 0 (d :: as) (e :: bs)).2 = 1) with hC | hC <;>
            rw [hC] at hfval <;>
            simp only [Nat.zero_mul, Nat.one_mul] at hfval <;> omega
        rw [hfull_dig, hAD, hBD]
        exact hgoal
  refine ⟨hmain.1, hmain.2.1, ?_, ?_, hmain.2.2⟩
  · rcases hzcase with ⟨i, hsome, hzeq⟩ | ⟨hnone, hzeq⟩
    · obtain ⟨hi0, hiz, hcar, htake⟩ := hflag i hsome
      have htake2 : (sub N a b).digits.take (i + 1) = a.digits.take (i + 1) := by
        rw [hdigeq]
        simpa using htake
      have hm2 : min a.zeros (i + 1) ≤ a.zeros := by omega
      have hm1 : min a.zeros (i + 1) ≤ i + 1 := by omega
      have hpre : (sub N a b).digits.take (min a.zeros (i + 1)) =
          List.replicate (min a.zeros (i + 1)) 0 := by
        have h1 : (sub N a b).digits.take (min a.zeros (i + 1)) =
            ((sub N a b).digits.take (i + 1)).take (min a.zeros (i + 1)) := by
          rw [List.take_take, inf_eq_left.2 hm1]
        rw [h1, htake2, List.take_take, inf_eq_left.2 hm1]
        exact inv_take_le ha hm2
      refine ⟨hmain.1, hmain.2.1, ?_⟩
      show (sub N a b).zeros = update_zeros N (sub N a b).digits 0
      rw [hzeq, ← hdigeq]
      exact update_zeros_of_zero_take N _ _ hpre
    · refine ⟨hmain.1, hmain.2.1, ?_⟩
      show (sub N a b).zeros = update_zeros N (sub N a b).digits 0
      rw [hzeq, ← hdigeq]
  · rcases hzcase with ⟨i, hsome, hzeq⟩ | ⟨hnone, hzeq⟩
    · obtain ⟨hi0, hiz, hcar, htake⟩ := hflag i hsome
      have htake2 : (sub N a b).digits.take (i + 1) = a.digits.take (i + 1) := by
        rw [hdigeq]
        simpa using htake
      have hm2 : min a.zeros (i + 1) ≤ a.zeros := by omega
      have hm1 : min a.zeros (i + 1) ≤ i + 1 := by omega
      have hpre : (sub N a b).digits.take (min a.zeros (i + 1)) =
          List.replicate (min a.zeros (i + 1)) 0 := by
        have h1 : (sub N a b).digits.take (min a.zeros (i + 1)) =
            ((sub N a b).digits.take (i + 1)).take (min a.zeros (i + 1)) := by
          rw [List.take_take, inf_eq_left.2 hm1]
        rw [h1, htake2, List.take_take, inf_eq_left.2 hm1]
        exact inv_take_le ha hm2
      exact zeros_spec_ext rfl (by rw [hzeq, ← hdigeq])
        (zeros_spec_of_scan N (sub N a b).digits (min a.zeros (i + 1))
          hmain.1 hpre)
    · exact zeros_spec_ext rfl (by rw [hzeq, ← hdigeq])
        (zeros_spec_of_scan N (sub N a b).digits 0 hmain.1 (by simp))

/-- Identity: subtracting a `Number` whose limbs are all zero and whose
`zeros` is `N` leaves the target unchanged, limbs and `zeros` field
alike (the early exit fires at index `N-2` with the borrow resolved). -/
theorem sub_zero_id {N : Nat} {a b : Number} (ha : Inv N a) (hb : Inv N b)
    (hz : b.zeros = N) : sub N a b = a := by
  have haz := inv_zeros_le ha
  have halen := ha.1
  have hblen := hb.1
  have habd := ha.2.1
  have hBD : b.digits = List.replicate N 0 := by
    have h1 := inv_take_zeros hb
    rw [hz] at h1
    rw [← h1, ← hblen, List.take_length]
  obtain ⟨hdigeq, hzcase⟩ := sub_cases N a b
  have hzero : ∀ j, j < b.digits.length → 0 + j < b.zeros →
      b.digits.getD j 1 = 0 := by
    intro j _ hj
    exact (zeros_spec_of_inv hb).2.1 j (by omega)
  obtain ⟨heqdig, heqcar, hflag⟩ := sub_digits_eq N b.zeros a.digits b.digits 0
    (halen.trans hblen.symm) (by simpa using halen) habd hzero
  have hds : (sub N a b).digits = a.digits := by
    rw [hdigeq, heqdig]
    cases hAD : a.digits with
    | nil =>
      rw [hBD]
      have hN0 : N = 0 := by
        rw [hAD] at halen
        simpa using halen.symm
      rw [hN0]
      rfl
    | cons d as =>
      have hNlen : 0 + as.length + 1 = N := by
        have h1 := halen
        rw [hAD] at h1
        simp only [List.length_cons] at h1
        omega
      have habd2 : bounded (d :: as) := by rw [← hAD]; exact habd
      have hrep : b.digits = List.replicate (as.length + 1) 0 := by
        rw [hBD]
        congr 1
        omega
      rw [hrep]
      exact (sub_full_zero N as 0 d hNlen habd2).1
  have hzeros : (sub N a b).zeros = a.zeros := by
    rcases hzcase with ⟨i, hsome, hzeq⟩ | ⟨hnone, hzeq⟩
    · rw [hzeq, ← hdigeq, hds]
      have hm : min a.zeros (i + 1) ≤ a.zeros := by omega
      rw [update_zeros_of_zero_take N a.digits _ (inv_take_le ha hm)]
      exact ha.2.2.symm
    · rw [hzeq, ← hdigeq, hds]
      exact ha.2.2.symm
  calc sub N a b = ⟨(sub N a b).digits, (sub N a b).zeros⟩ := rfl
    _ = ⟨a.digits, a.zeros⟩ := by rw [hds, hzeros]
    _ = a := rfl

/-! ### Auxiliary facts: lengths, injectivity of the value map, zero test -/

theorem inv_digits_length (x : Nat) : ∀ (n rem : Nat),
    (inv_digits x rem n).length = n := by
  intro n
  induction n with
  | zero => intro rem; rfl
  | succ n ih =>
    intro rem
    simp [inv_digits, ih]

theorem mul4_digits_length : ∀ (ds : List Nat),
    (mul4_digits ds).1.length = ds.length := by
  intro ds
  induction ds with
  | nil => rfl
  | cons d ds ih =>
    simp [mul4_digits, ih]

theorem div_digits_length (d : Nat) : ∀ (ds : List Nat) (rem : Nat),
    (div_digits d rem ds).1.length = ds.length := by
  intro ds
  induction ds with
  | nil => intro rem; rfl
  | cons a ds ih =>
    intro rem
    simp [div_digits, ih]

/-- Two bounded limb vectors of the same length with the same value are
equal: the base-`B` representation is canonical. -/
theorem val_inj : ∀ {s t : List Nat}, s.length = t.length →
    bounded s → bounded t → val s = val t → s = t := by
  intro s
  induction s with
  | nil =>
    intro t hlen _ _ _
    exact (List.length_eq_zero.1 (by simpa using hlen.symm)).symm
  | cons d s ih =>
    intro t hlen hs ht hval
    cases t with
    | nil => simp at hlen
    | cons e t =>
      have hlen2 : s.length = t.length := by simpa using hlen
      have hvs : val s < B ^ s.length :=
        val_lt fun x hx => hs x (List.mem_cons_of_mem d hx)
      have hvt : val t < B ^ s.length := by
        rw [hlen2]
        exact val_lt fun x hx => ht x (List.mem_cons_of_mem e hx)
      have hv : d * B ^ s.length + val s = e * B ^ s.length + val t := by
        have h1 : val (d :: s) = d * B ^ s.length + val s := rfl
        have h2 : val (e :: t) = e * B ^ s.length + val t := by
          show e * B ^ t.length + val t = _
          rw [hlen2]
        rw [h1, h2] at hval
        exact hval
      have hP : 0 < B ^ s.length := Nat.pos_pow_of_pos _ B_pos
      have hd : d = e := by
        have h1 : (d * B ^ s.length + val s) / B ^ s.length = d := by
          rw [Nat.mul_comm d, Nat.mul_add_div hP, Nat.div_eq_of_lt hvs]
          omega
        have h2 : (e * B ^ s.length + val t) / B ^ s.length = e := by
          rw [Nat.mul_comm e, Nat.mul_add_div hP, Nat.div_eq_of_lt hvt]
          omega
        rw [← h1, ← h2, hv]
      subst hd
      have hval2 : val s = val t := by omega
      rw [ih hlen2 (fun x hx => hs x (List.mem_cons_of_mem d hx))
        (fun x hx => ht x (List.mem_cons_of_mem d hx)) hval2]

/-- Under the invariant, `is_zero` is exactly "the value is zero". -/
theorem is_zero_iff_val {N : Nat} {t : Number} (h : Inv N t) :
    is_zero N t = true ↔ val t.digits = 0 := by
  obtain ⟨hlen, hbd, hz⟩ := h
  rw [is_zero, beq_iff_eq, hz, update_zeros_zero_eq]
  by_cases hcase : zerosOf t.digits = t.digits.length
  · rw [if_pos hcase]
    constructor
    · intro _
      exact val_eq_zero_iff.2 ((zerosOf_eq_length_iff _).1 hcase)
    · intro _
      rfl
  · simp only [if_neg hcase]
    have h1 : zerosOf t.digits < t.digits.length :=
      lt_of_le_of_ne (zerosOf_le_length _) hcase
    constructor
    · intro habs
      exfalso
      rw [habs, ← hlen] at h1
      omega
    · intro hv
      exfalso
      apply hcase
      rw [zerosOf_eq_length_iff]
      exact val_eq_zero_iff.1 hv

/-! ### Termination of the `ataninv` series loop -/

theorem atan_step_term (N x2 : Nat) (s : AtanState) :
    (atan_step N x2 s).term = divScalar N (divScalar N s.term x2) x2 := rfl

theorem atan_loop_terminates (N x2 : Nat) (h25 : 25 ≤ x2) (hxB : x2 ≤ B) :
    ∀ (v : Nat) (s : AtanState), Inv N s.term → val s.term.digits ≤ v →
    ∃ fuel, is_zero N (atan_loop N x2 fuel (s : AtanState)).term = true := by
  intro v
  induction v with
  | zero =>
    intro s hinv hv
    have hz : is_zero N s.term = true := (is_zero_iff_val hinv).2 (by omega)
    refine ⟨1, ?_⟩
    simp [atan_loop, hz]
  | succ v ih =>
    intro s hinv hv
    by_cases hz : is_zero N s.term = true
    · refine ⟨1, ?_⟩
      simp [atan_loop, hz]
    · have hvpos : 0 < val s.term.digits := by
        rcases Nat.eq_zero_or_pos (val s.term.digits) with h0 | hpos
        · exact absurd ((is_zero_iff_val hinv).2 h0) hz
        · exact hpos
      obtain ⟨hinv1, _, _, _, hval1⟩ := divScalar_spec hinv (by omega) hxB
      obtain ⟨hinv2, _, _, _, hval2⟩ := divScalar_spec hinv1 (by omega) hxB
      have hlt1 : val (divScalar N s.term x2).digits < val s.term.digits := by
        rw [hval1]
        exact Nat.div_lt_self hvpos (by omega)
      have hle2 : val (divScalar N (divScalar N s.term x2) x2).digits ≤
          val (divScalar N s.term x2).digits := by
        rw [hval2]
        exact Nat.div_le_self _ _
      have hstep_inv : Inv N (atan_step N x2 s).term := by
        rw [atan_step_term]
        exact hinv2
      have hstep_le : val (atan_step N x2 s).term.digits ≤ v := by
        rw [atan_step_term]
        omega
      obtain ⟨fuel, hfuel⟩ := ih (atan_step N x2 s) hstep_inv hstep_le
      refine ⟨fuel + 1, ?_⟩
      have hloop : atan_loop N x2 (fuel + 1) s =
          atan_loop N x2 fuel (atan_step N x2 s) := by
        simp [atan_loop, hz]
      rw [hloop]
      exact hfuel

/-! ### Concrete invariant-satisfying inputs exhibiting the `+=` carry drop -/

theorem inv_concrete_a5 :
    Inv DIGITS ⟨List.replicate 9998 0 ++ [5, B - 1], 9998⟩ := by
  refine ⟨by rw [List.length_append, List.length_replicate]; rfl, ?_, ?_⟩
  · intro y hy
    rcases List.mem_append.1 hy with h | h
    · rw [List.eq_of_mem_replicate h]
      exact B_pos
    · have hB := B_pos
      simp only [List.mem_cons, List.mem_singleton] at h
      rcases h with rfl | rfl | h
      · decide
      · omega
      · simp at h
  · show (9998 : Nat) = update_zeros DIGITS (List.replicate 9998 0 ++ [5, B - 1]) 0
    have hzOf : zerosOf (List.replicate 9998 0 ++ [5, B - 1]) = 9998 := by
      rw [zerosOf_replicate_append]
      simp [zerosOf]
    have hlenA : (List.replicate 9998 (0 : Nat) ++ [5, B - 1]).length = 10000 := by
      rw [List.length_append, List.length_replicate]
      rfl
    rw [update_zeros_zero_eq, hzOf, hlenA, if_neg (by norm_num)]

theorem inv_concrete_a1 :
    Inv DIGITS ⟨List.replicate 9998 0 ++ [1, 0], 9998⟩ := by
  refine ⟨by rw [List.length_append, List.length_replicate]; rfl, ?_, ?_⟩
  · intro y hy
    rcases List.mem_append.1 hy with h | h
    · rw [List.eq_of_mem_replicate h]
      exact B_pos
    · simp only [List.mem_cons, List.mem_singleton] at h
      rcases h with rfl | rfl | h
      · decide
      · exact B_pos
      · simp at h
  · show (9998 : Nat) = update_zeros DIGITS (List.replicate 9998 0 ++ [1, 0]) 0
    have hzOf : zerosOf (List.replicate 9998 0 ++ [1, 0]) = 9998 := by
      rw [zerosOf_replicate_append]
      simp [zerosOf]
    have hlenA : (List.replicate 9998 (0 : Nat) ++ [1, 0]).length = 10000 := by
      rw [List.length_append, List.length_replicate]
      rfl
    rw [update_zeros_zero_eq, hzOf, hlenA, if_neg (by norm_num)]

theorem inv_concrete_b :
    Inv DIGITS ⟨List.replicate 9999 0 ++ [1], 9999⟩ := by
  refine ⟨by rw [List.length_append, List.length_replicate]; rfl, ?_, ?_⟩
  · intro y hy
    rcases List.mem_append.1 hy with h | h
    · rw [List.eq_of_mem_replicate h]
      exact B_pos
    · simp only [List.mem_singleton] at h
      subst h
      decide
  · show (9999 : Nat) = update_zeros DIGITS (List.replicate 9999 0 ++ [1]) 0
    have hzOf : zerosOf (List.replicate 9999 0 ++ [1]) = 9999 := by
      rw [zerosOf_replicate_append]
      simp [zerosOf]
    have hlenA : (List.replicate 9999 (0 : Nat) ++ [1]).length = 10000 := by
      rw [List.length_append, List.length_replicate]
      rfl
    rw [update_zeros_zero_eq, hzOf, hlenA, if_neg (by norm_num)]

theorem add_digits_boundary : add_digits [B - 1] [1] = ([0], 1) := by decide

theorem drop_b_9999 : (List.replicate 9999 (0 : Nat) ++ [1]).drop 9999 = [1] :=
  List.drop_left' (List.length_replicate 9999 0)

/-- The limbs `operator+=` produces on the 10000-limb pair
`a = 0...0 5 (B-1)`, `b = 0...0 0 1` (`b.zeros = 9999`): the loop only
visits index 9999, where `(B-1) + 1` carries out, and the carry is
dropped, so limb 9998 stays `5`. -/
theorem hAdd_concrete_digits :
    (hAdd DIGITS ⟨List.replicate 9998 0 ++ [5, B - 1], 9998⟩
      ⟨List.replicate 9999 0 ++ [1], 9999⟩).digits =
      (List.replicate 9998 0 ++ [5]) ++ [0] := by
  have hA : (List.replicate 9998 (0 : Nat) ++ [5]) ++ [B - 1] =
      List.replicate 9998 0 ++ [5, B - 1] := by
    rw [List.append_assoc]
    rfl
  have hlen1 : (List.replicate 9998 (0 : Nat) ++ [5]).length = 9999 := by
    rw [List.length_append, List.length_replicate]
    rfl
  have htakeA : (List.replicate 9998 0 ++ [5, B - 1]).take 9999 =
      List.replicate 9998 0 ++ [5] := by
    rw [← hA]
    exact List.take_left' hlen1
  have hdropA : (List.replicate 9998 0 ++ [5, B - 1]).drop 9999 = [B - 1] := by
    rw [← hA]
    exact List.drop_left' hlen1
  simp only [hAdd_def]
  rw [htakeA, hdropA, drop_b_9999, add_digits_boundary]

/-! ### Zero-cache exactness of the divisor-taking operations, for every
positive divisor (the final scan from index 0 — or from a provably
all-zero prefix — is exact regardless of what the quotient limbs are) -/

theorem set_inv_zeros_exact (N k : Nat) : zeros_spec N (set_inv N k) := by
  rw [set_inv_def]
  exact zeros_spec_of_scan N _ 0 (inv_digits_length k N 1) (by simp)

theorem set_to_div_zeros_exact (N : Nat) (a x : Number) (d : Nat)
    (ha : Inv N a) (hx : Inv N x) : zeros_spec N (set_to_div N a x d) := by
  have hxz := inv_zeros_le hx
  have halen := ha.1
  have hxlen := hx.1
  have hzr : (zero_range a.digits a.zeros x.zeros).take x.zeros =
      List.replicate x.zeros 0 :=
    zero_range_take a.digits a.zeros x.zeros (inv_take_zeros ha)
      (by rw [halen]; omega)
  have hdslen : ((zero_range a.digits a.zeros x.zeros).take x.zeros ++
      (div_digits d 0 (x.digits.drop x.zeros)).1).length = N := by
    rw [List.length_append, List.length_take, zero_range_length,
      div_digits_length, List.length_drop, halen, hxlen]
    omega
  have hdstake : ((zero_range a.digits a.zeros x.zeros).take x.zeros ++
      (div_digits d 0 (x.digits.drop x.zeros)).1).take x.zeros =
      List.replicate x.zeros 0 := by
    rw [List.take_append_of_le_length (by
      rw [List.length_take, zero_range_length, halen]
      omega), List.take_take, inf_eq_left.2 (le_refl _), hzr]
  rw [set_to_div_def]
  exact zeros_spec_of_scan N _ x.zeros hdslen hdstake

theorem divScalar_zeros_exact (N : Nat) (a : Number) (q : Nat)
    (ha : Inv N a) : zeros_spec N (divScalar N a q) := by
  have haz := inv_zeros_le ha
  have halen := ha.1
  have htake := inv_take_zeros ha
  have hdslen : (a.digits.take a.zeros ++
      (div_digits q 0 (a.digits.drop a.zeros)).1).length = N := by
    rw [List.length_append, List.length_take, div_digits_length,
      List.length_drop, halen]
    omega
  have hdstake : (a.digits.take a.zeros ++
      (div_digits q 0 (a.digits.drop a.zeros)).1).take a.zeros =
      List.replicate a.zeros 0 := by
    rw [List.take_append_of_le_length (by
      rw [List.length_take, halen]
      omega), List.take_take, inf_eq_left.2 (le_refl _), htake]
  rw [divScalar_def]
  exact zeros_spec_of_scan N _ a.zeros hdslen hdstake

/-! ### Claims -/

/-- C1: for every `Number` satisfying the representation invariant on
entry, each mutating operation — `set_zero`, `set_inv`, `mul4`,
`set_to_div`, `operator+=`, `operator-=`, `operator/=` — re-establishes
on exit that the limbs at indices `[0, zeros)` are all zero and either
`zeros = N` or the limb at index `zeros` is nonzero: the cached
leading-zero count is exact, not merely a safe lower bound.  The
divisor arguments range over every positive integer (including 1); the
exactness of the final rescan does not depend on the quotient limbs. -/
theorem claim_zeros_cache_exact (N : Nat) (a b x : Number) (k d q : Nat)
    (ha : Inv N a) (hb : Inv N b) (hx : Inv N x)
    (_hk : 0 < k) (_hd : 0 < d) (_hq : 0 < q) :
    zeros_spec N (set_zero N) ∧ zeros_spec N (set_inv N k) ∧
      zeros_spec N (mul4 N a) ∧ zeros_spec N (set_to_div N a x d) ∧
      zeros_spec N (hAdd N a b) ∧ zeros_spec N (sub N a b) ∧
      zeros_spec N (divScalar N a q) :=
  ⟨(set_zero_spec N).2, set_inv_zeros_exact N k, (mul4_spec ha).2.1,
    set_to_div_zeros_exact N a x d ha hx, (hAdd_spec ha hb).2.1,
    (sub_spec ha hb).2.2.2.1, divScalar_zeros_exact N a q ha⟩

/-- Witness for C1 at `N = 2` with concrete invariant-satisfying inputs;
`set_inv`'s divisor is instantiated at 1, the smallest positive value. -/
theorem claim_zeros_cache_exact_witness :
    (Inv 2 ⟨[1, 2], 0⟩ ∧ Inv 2 ⟨[0, 3], 1⟩ ∧ Inv 2 ⟨[0, 7], 1⟩ ∧
        (0 : Nat) < 1 ∧ (0 : Nat) < 5 ∧ (0 : Nat) < 7) ∧
      (zeros_spec 2 (set_zero 2) ∧ zeros_spec 2 (set_inv 2 1) ∧
        zeros_spec 2 (mul4 2 ⟨[1, 2], 0⟩) ∧
        zeros_spec 2 (set_to_div 2 ⟨[1, 2], 0⟩ ⟨[0, 7], 1⟩ 5) ∧
        zeros_spec 2 (hAdd 2 ⟨[1, 2], 0⟩ ⟨[0, 3], 1⟩) ∧
        zeros_spec 2 (sub 2 ⟨[1, 2], 0⟩ ⟨[0, 3], 1⟩) ∧
        zeros_spec 2 (divScalar 2 ⟨[1, 2], 0⟩ 7)) :=
  ⟨⟨by decide, by decide, by decide, by decide, by decide, by decide⟩,
    claim_zeros_cache_exact 2 ⟨[1, 2], 0⟩ ⟨[0, 3], 1⟩ ⟨[0, 7], 1⟩ 1 5 7
      (by decide) (by decide) (by decide) (by decide) (by decide)
      (by decide)⟩

/-- C2 (code bug): on the invariant-satisfying 10000-limb pair
`a = 0^9998, 5, B-1` (`zeros = 9998`) and `b = 0^9999, 1`
(`zeros = 9999`), `operator+=` does NOT set `a` to
`(val a + val b) mod B^DIGITS`: the loop stops at index `rhs.zeros = 9999`
and the carry out of that index is discarded instead of propagating into
limb 9998; the result has value `5*B` where the correct sum is `6*B`. -/
theorem claim_add_carry_dropped :
    Inv DIGITS ⟨List.replicate 9998 0 ++ [5, B - 1], 9998⟩ ∧
      Inv DIGITS ⟨List.replicate 9999 0 ++ [1], 9999⟩ ∧
      val (hAdd DIGITS ⟨List.replicate 9998 0 ++ [5, B - 1], 9998⟩
          ⟨List.replicate 9999 0 ++ [1], 9999⟩).digits ≠
        (val (List.replicate 9998 0 ++ [5, B - 1]) +
          val (List.replicate 9999 0 ++ [1])) % B ^ DIGITS := by
  have hBpos := B_pos
  have hva : val (List.replicate 9998 0 ++ [5, B - 1]) = 5 * B + (B - 1) := by
    rw [val_append, val_replicate_zero]
    simp [val]
  have hvb : val (List.replicate 9999 0 ++ [1]) = 1 := by
    rw [val_append, val_replicate_zero]
    simp [val]
  have hlhs : val (hAdd DIGITS ⟨List.replicate 9998 0 ++ [5, B - 1], 9998⟩
      ⟨List.replicate 9999 0 ++ [1], 9999⟩).digits = 5 * B := by
    rw [hAdd_concrete_digits, val_append, val_append, val_replicate_zero]
    simp [val]
  refine ⟨inv_concrete_a5, inv_concrete_b, ?_⟩
  rw [hlhs, hva, hvb]
  have hsum : 5 * B + (B - 1) + 1 = 6 * B := by omega
  rw [hsum]
  have h6 : (6 : Nat) < B := by decide
  have hlt : 6 * B < B ^ DIGITS := by
    have h1 : 6 * B < B * B := Nat.mul_lt_mul_of_lt_of_le h6 (le_refl B) B_pos
    have h2 : B * B ≤ B ^ DIGITS := by
      rw [← pow_two]
      exact Nat.pow_le_pow_right (by decide) (by norm_num [DIGITS])
    omega
  rw [Nat.mod_eq_of_lt hlt]
  omega

/-- C3 (code bug): on the invariant-satisfying 10000-limb pair
`a = 0^9998, 1, 0` (value `B`, `zeros = 9998`) and `b = 0^9999, 1`
(value `1`, `zeros = 9999`) with `val a ≥ val b`, performing `a -= b`
and then `+= b` does NOT restore `a`: subtraction yields
`0^9999, B-1` correctly, but adding `b` back drops the carry out of
index 9999 and produces the zero vector instead of `a`. -/
theorem claim_sub_add_restore_fails :
    Inv DIGITS ⟨List.replicate 9998 0 ++ [1, 0], 9998⟩ ∧
      Inv DIGITS ⟨List.replicate 9999 0 ++ [1], 9999⟩ ∧
      val (List.replicate 9999 0 ++ [1]) ≤
        val (List.replicate 9998 0 ++ [1, 0]) ∧
      hAdd DIGITS
          (sub DIGITS ⟨List.replicate 9998 0 ++ [1, 0], 9998⟩
            ⟨List.replicate 9999 0 ++ [1], 9999⟩)
          ⟨List.replicate 9999 0 ++ [1], 9999⟩ ≠
        ⟨List.replicate 9998 0 ++ [1, 0], 9998⟩ := by
  have hBpos := B_pos
  have hva : val (List.replicate 9998 0 ++ [1, 0]) = B := by
    rw [val_append, val_replicate_zero]
    simp [val]
  have hvb : val (List.replicate 9999 0 ++ [1]) = 1 := by
    rw [val_append, val_replicate_zero]
    simp [val]
  have hle : val (List.replicate 9999 0 ++ [1]) ≤
      val (List.replicate 9998 0 ++ [1, 0]) := by
    rw [hva, hvb]
    omega
  refine ⟨inv_concrete_a1, inv_concrete_b, hle, ?_⟩
  obtain ⟨hclen, hcbd, hcinv, _, hcval⟩ := sub_spec inv_concrete_a1 inv_concrete_b
  have hcv : val (sub DIGITS ⟨List.replicate 9998 0 ++ [1, 0], 9998⟩
      ⟨List.replicate 9999 0 ++ [1], 9999⟩).digits = B - 1 := by
    rw [hcval hle, hva, hvb]
  have htarget_val : val (List.replicate 9999 0 ++ [B - 1]) = B - 1 := by
    rw [val_append, val_replicate_zero]
    simp [val]
  have htarget_len : (List.replicate 9999 (0 : Nat) ++ [B - 1]).length = DIGITS := by
    rw [List.length_append, List.length_replicate]
    rfl
  have htarget_bd : bounded (List.replicate 9999 0 ++ [B - 1]) := by
    apply bounded_append (bounded_replicate _)
    intro y hy
    simp only [List.mem_singleton] at hy
    subst hy
    omega
  have hcd : (sub DIGITS ⟨List.replicate 9998 0 ++ [1, 0], 9998⟩
      ⟨List.replicate 9999 0 ++ [1], 9999⟩).digits =
      List.replicate 9999 0 ++ [B - 1] :=
    val_inj (hclen.trans htarget_len.symm) hcbd htarget_bd
      (by rw [hcv, htarget_val])
  have htakeC : (sub DIGITS ⟨List.replicate 9998 0 ++ [1, 0], 9998⟩
      ⟨List.replicate 9999 0 ++ [1], 9999⟩).digits.take 9999 =
      List.replicate 9999 0 := by
    rw [hcd]
    exact List.take_left' (List.length_replicate 9999 0)
  have hdropC : (sub DIGITS ⟨List.replicate 9998 0 ++ [1, 0], 9998⟩
      ⟨List.replicate 9999 0 ++ [1], 9999⟩).digits.drop 9999 = [B - 1] := by
    rw [hcd]
    exact List.drop_left' (List.length_replicate 9999 0)
  have hdsAdd : (hAdd DIGITS
      (sub DIGITS ⟨List.replicate 9998 0 ++ [1, 0], 9998⟩
        ⟨List.replicate 9999 0 ++ [1], 9999⟩)
      ⟨List.replicate 9999 0 ++ [1], 9999⟩).digits =
      List.replicate 9999 0 ++ [0] := by
    simp only [hAdd_def]
    rw [htakeC, hdropC, drop_b_9999, add_digits_boundary]
  have hvAdd : val (hAdd DIGITS
      (sub DIGITS ⟨List.replicate 9998 0 ++ [1, 0], 9998⟩
        ⟨List.replicate 9999 0 ++ [1], 9999⟩)
      ⟨List.replicate 9999 0 ++ [1], 9999⟩).digits = 0 := by
    rw [hdsAdd, val_append, val_replicate_zero]
    simp [val]
  intro heq
  have hvals := congrArg (fun t => val t.digits) heq
  simp only at hvals
  rw [hvAdd] at hvals
  rw [hva] at hvals
  omega

/-- C4: for invariant-satisfying `a` and `b` with `val b ≤ val a`,
`a -= b` produces the exact difference `val a - val b`, on both the
normal path and the early-exit path (the statement quantifies over all
such inputs, so both exits of the loop are covered). -/
theorem claim_sub_exact_difference (N : Nat) (a b : Number)
    (ha : Inv N a) (hb : Inv N b) (hle : val b.digits ≤ val a.digits) :
    val (sub N a b).digits = val a.digits - val b.digits :=
  (sub_spec ha hb).2.2.2.2 hle

/-- Witness for C4 at `N = 2`, `a = [3, 4]`, `b = [1, 2]`; here
`b.zeros = 0` exercises the full loop. -/
theorem claim_sub_exact_difference_witness :
    (Inv 2 ⟨[3, 4], 0⟩ ∧ Inv 2 ⟨[1, 2], 0⟩ ∧ val [1, 2] ≤ val [3, 4]) ∧
      val (sub 2 ⟨[3, 4], 0⟩ ⟨[1, 2], 0⟩).digits = val [3, 4] - val [1, 2] :=
  ⟨⟨by decide, by decide, by decide⟩,
    claim_sub_exact_difference 2 ⟨[3, 4], 0⟩ ⟨[1, 2], 0⟩
      (by decide) (by decide) (by decide)⟩

/-- C5 counterexample: the claim fails at the small positive integer
`x = 1` (already at one limb): the quotient limb `B/1 = B` is truncated
to 0 on storage, so `set_inv(1)` yields value 0, not
`floor(B^1 / 1) = B`. -/
theorem claim_set_inv_cex :
    val (set_inv 1 1).digits ≠ B ^ 1 / 1 := by decide

/-- C5 amended: for every integer `x` with `2 ≤ x ≤ B` (so that the limb
quotients fit), `set_inv(x)` fills the limbs with the base-`B`
long-division expansion of `1/x`: the value is exactly `floor(B^N / x)`,
hence within `B^-N` of the rational `1/x`
(`x*v ≤ B^N < x*(v+1)`). -/
theorem claim_set_inv_reciprocal (N x : Nat) (hx2 : 2 ≤ x) (hxB : x ≤ B) :
    val (set_inv N x).digits = B ^ N / x ∧
      x * val (set_inv N x).digits ≤ B ^ N ∧
      B ^ N < x * (val (set_inv N x).digits + 1) :=
  ⟨(set_inv_spec hx2 hxB).2.2.2.2.1, (set_inv_spec hx2 hxB).2.2.2.2.2.1,
    (set_inv_spec hx2 hxB).2.2.2.2.2.2⟩

/-- Witness for the amended C5 at `N = 2`, `x = 3`. -/
theorem claim_set_inv_reciprocal_witness :
    ((2 : Nat) ≤ 3 ∧ (3 : Nat) ≤ B) ∧
      (val (set_inv 2 3).digits = B ^ 2 / 3 ∧
        3 * val (set_inv 2 3).digits ≤ B ^ 2 ∧
        B ^ 2 < 3 * (val (set_inv 2 3).digits + 1)) :=
  ⟨⟨by decide, by decide⟩, claim_set_inv_reciprocal 2 3 (by decide) (by decide)⟩

/-- C6: for every invariant-satisfying `v`, `mul4()` yields exactly
`4*v mod 1` (limb value `4*val v mod B^N`, the carry out of limb 0
discarded), and when `v < 1/4` (i.e. `4*val v < B^N`) the result is
exactly `4*v` with no truncation. -/
theorem claim_mul4_scale (N : Nat) (a : Number) (ha : Inv N a) :
    val (mul4 N a).digits = 4 * val a.digits % B ^ N ∧
      (4 * val a.digits < B ^ N → val (mul4 N a).digits = 4 * val a.digits) := by
  refine ⟨(mul4_spec ha).2.2.2.2, ?_⟩
  intro h
  rw [(mul4_spec ha).2.2.2.2, Nat.mod_eq_of_lt h]

/-- Witness for C6 at `N = 1`, `v = [3]` (both conjuncts apply:
`4*3 < B`). -/
theorem claim_mul4_scale_witness :
    (Inv 1 ⟨[3], 0⟩ ∧ 4 * val [3] < B ^ 1) ∧
      (val (mul4 1 ⟨[3], 0⟩).digits = 4 * val [3] % B ^ 1 ∧
        (4 * val [3] < B ^ 1 → val (mul4 1 ⟨[3], 0⟩).digits = 4 * val [3])) :=
  ⟨⟨by decide, by decide⟩, claim_mul4_scale 1 ⟨[3], 0⟩ (by decide)⟩

/-- C7: for invariant-satisfying destination `a` and source `x` and every
positive divisor `d` fitting the accumulator (`d ≤ B`), `set_to_div(x,d)`
produces, limb for limb, the full base-`B` long division of `x`'s `N`-limb
value by `d` — identical to the naive division loop started at index 0 —
and its value is `floor(val x / d)`. -/
theorem claim_set_to_div_matches_naive (N : Nat) (a x : Number) (d : Nat)
    (ha : Inv N a) (hx : Inv N x) (hd0 : 0 < d) (hdB : d ≤ B) :
    (set_to_div N a x d).digits = (div_digits d 0 x.digits).1 ∧
      val (set_to_div N a x d).digits = val x.digits / d :=
  ⟨(set_to_div_spec ha hx hd0 hdB).2.2.2.2.1,
    (set_to_div_spec ha hx hd0 hdB).2.2.2.2.2⟩

/-- Witness for C7 at `N = 2`, `x = [7, 9]` (with `x.zeros = 0`),
destination `[0, 0]`, `d = 3`. -/
theorem claim_set_to_div_matches_naive_witness :
    (Inv 2 ⟨[0, 0], 2⟩ ∧ Inv 2 ⟨[7, 9], 0⟩ ∧ (0 : Nat) < 3 ∧ (3 : Nat) ≤ B) ∧
      ((set_to_div 2 ⟨[0, 0], 2⟩ ⟨[7, 9], 0⟩ 3).digits =
          (div_digits 3 0 [7, 9]).1 ∧
        val (set_to_div 2 ⟨[0, 0], 2⟩ ⟨[7, 9], 0⟩ 3).digits = val [7, 9] / 3) :=
  ⟨⟨by decide, by decide, by decide, by decide⟩,
    claim_set_to_div_matches_naive 2 ⟨[0, 0], 2⟩ ⟨[7, 9], 0⟩ 3
      (by decide) (by decide) (by decide) (by decide)⟩

/-- C8: for every `x` with `x*x ≥ 25` (and `x*x` fitting a limb, as for
the program's `x = 5` and `x = 239`), the `ataninv` loop terminates: some
finite fuel makes `term.is_zero()` true, because each iteration divides
`term` twice by `x2 ≥ 25`, strictly decreasing a nonzero value, and the
exact zero-count cache makes `is_zero` hold exactly when the value
reaches 0. -/
theorem claim_ataninv_terminates (N x : Nat) (h25 : 25 ≤ x * x)
    (hxB : x * x ≤ B) :
    ∃ fuel, is_zero N (atan_loop N (x * x) fuel (atan_init N x)).term = true := by
  have hx5 : 5 ≤ x := by nlinarith
  have hxB1 : x ≤ B := by nlinarith
  have hterm : (atan_init N x).term = set_inv N x := rfl
  have hinv : Inv N (atan_init N x).term := by
    rw [hterm]
    exact (set_inv_spec (by omega) hxB1).1
  exact atan_loop_terminates N (x * x) h25 hxB (val (atan_init N x).term.digits)
    (atan_init N x) hinv (le_refl _)

/-- Witness for C8 at `N = 1`, `x = 5`. -/
theorem claim_ataninv_terminates_witness :
    (25 ≤ 5 * 5 ∧ 5 * 5 ≤ B) ∧
      ∃ fuel, is_zero 1 (atan_loop 1 (5 * 5) fuel (atan_init 1 5)).term = true :=
  ⟨⟨by decide, by decide⟩, claim_ataninv_terminates 1 5 (by decide) (by decide)⟩

/-- C9 (code bug): at the reduced test width `N = 3` (the claim's own
reduced-width scenario) the full driver sequence
`x = ataninv(5); x.mul4(); x -= ataninv(239); x.mul4();` does NOT
reproduce the hexadecimal fractional expansion of pi.  Pi's fractional
64-bit limbs are `0x243F6A8885A308D3, 0x13198A2E03707344, 0xA4093822299F31D0, ...`;
the program computes limb 1 as `0x13198A2E03707334` — short by `0x10`,
the `+=` carry dropped at a `rhs.zeros` boundary inside `ataninv(5)` and
amplified 16-fold by the two `mul4` calls.  Both series loops do exit via
their own `is_zero` guard within the given fuel. -/
theorem claim_machin_driver_output :
    is_zero 3 (atan_loop 3 (5 * 5) 40 (atan_init 3 5)).term = true ∧
      is_zero 3 (atan_loop 3 (239 * 239) 40 (atan_init 3 239)).term = true ∧
      (picalc 3 40).digits =
        [0x243f6a8885a308d3, 0x13198a2e03707334, 0xa4093822299f31f0] ∧
      (picalc 3 40).digits.getD 1 0 ≠ 0x13198a2e03707344 := by
  refine ⟨by decide, by decide, by decide, by decide⟩

/-- C10: adding or subtracting a `Number` `b` with `is_zero()` true (all
limbs zero, `zeros = N`) leaves an invariant-satisfying `a` completely
unchanged — limbs and `zeros` field alike — via `operator+=`'s empty loop
and `operator-=`'s early exit. -/
theorem claim_zero_operand_identity (N : Nat) (a b : Number)
    (ha : Inv N a) (hb : Inv N b) (hz : is_zero N b = true) :
    hAdd N a b = a ∧ sub N a b = a := by
  have hzN : b.zeros = N := by
    rw [is_zero, beq_iff_eq] at hz
    exact hz
  exact ⟨hAdd_zero_id ha hb hzN, sub_zero_id ha hb hzN⟩

/-- Witness for C10 at `N = 2`, `a = [0, 5]`, `b = [0, 0]`. -/
theorem claim_zero_operand_identity_witness :
    (Inv 2 ⟨[0, 5], 1⟩ ∧ Inv 2 ⟨[0, 0], 2⟩ ∧ is_zero 2 ⟨[0, 0], 2⟩ = true) ∧
      (hAdd 2 ⟨[0, 5], 1⟩ ⟨[0, 0], 2⟩ = ⟨[0, 5], 1⟩ ∧
        sub 2 ⟨[0, 5], 1⟩ ⟨[0, 0], 2⟩ = ⟨[0, 5], 1⟩) :=
  ⟨⟨by decide, by decide, by decide⟩,
    claim_zero_operand_identity 2 ⟨[0, 5], 1⟩ ⟨[0, 0], 2⟩
      (by decide) (by decide) (by decide)⟩

end Picalc
